import Mathlib

/-!
Verification of the budget-constrained recursive content-tree generator of
hypothesis-awkward.  The strategies are shallowly embedded as deterministic
functions over an explicit draw trace: each primitive nondeterministic choice
(`st.integers`, `st.booleans`, `st.sampled_from`, `st.permutations`) consumes
one natural number from the trace.  An exhausted trace yields the minimal
choice, matching the shrink-to-simplest convention of the sampling engine.
-/

namespace HypAwk

/-- A draw trace: the raw nondeterministic choices consumed by the generator,
one natural number per primitive draw. -/
abbrev Trace := List Nat

/-- Consume one raw draw. -/
def drawRaw : Trace → Nat × Trace
  | [] => (0, [])
  | h :: t => (h, t)

/-- Draw an integer in [lo, hi]; models st.integers(min_value=lo, max_value=hi). -/
def drawNat (lo hi : Nat) : Trace → Nat × Trace
  | [] => (min hi lo, [])
  | h :: t => (min hi (lo + h % (hi + 1 - lo)), t)

/-- Draw a boolean; models st.booleans(). -/
def drawBool : Trace → Bool × Trace
  | [] => (false, [])
  | h :: t => (h % 2 == 1, t)

/-- Draw one element of xs (d returned for empty xs); models st.sampled_from(xs). -/
def drawChoice (xs : List α) (d : α) : Trace → α × Trace
  | [] => (xs.getD 0 d, [])
  | h :: t => (xs.getD (h % xs.length) d, t)

/-- Draw k integers each in [lo, hi]; models
st.lists(st.integers(lo, hi), min_size=k, max_size=k). -/
def drawNats : Nat → Nat → Nat → Trace → List Nat × Trace
  | 0, _, _, tr => ([], tr)
  | k+1, lo, hi, tr =>
    let (n, tr1) := drawNat lo hi tr
    let (ns, tr2) := drawNats k lo hi tr1
    (n :: ns, tr2)

/-- Shallow embedding of the awkward Content layouts produced by the strategies.
Numeric leaf payloads are abstracted to their element count (raw scalar value
generation is delegated to an external sampler and no claim depends on the
values); string and bytestring contents are kept atomic, as the strategies
treat them as leaves for budget and depth purposes; record field names are
abstracted to distinct naturals. -/
inductive Content where
  | numpyArray (n : Nat)
  | emptyArray
  | stringArray (n : Nat)
  | bytestringArray (n : Nat)
  | regularArray (content : Content) (size : Nat) (zerosLength : Nat)
  | listOffsetArray (offsets : List Nat) (content : Content)
  | listArray (starts : List Nat) (stops : List Nat) (content : Content)
  | recordArray (contents : List Content) (fields : Option (List Nat)) (length : Nat)
  | unionArray (tags : List Nat) (index : List Nat) (contents : List Content)

/-- Length of a content (Python len), as awkward computes it for each node. -/
def clen : Content → Nat
  | .numpyArray n => n
  | .emptyArray => 0
  | .stringArray n => n
  | .bytestringArray n => n
  | .regularArray c size z => if size = 0 then z else clen c / size
  | .listOffsetArray offsets _ => offsets.length - 1
  | .listArray starts _ _ => starts.length
  | .recordArray _ _ len => len
  | .unionArray tags _ _ => tags.length

mutual

/-- Total number of leaf scalar elements in a content tree (_leaf_size in
content.py: each string or bytestring element counts as one unit). -/
def weight : Content → Nat
  | .numpyArray n => n
  | .emptyArray => 0
  | .stringArray n => n
  | .bytestringArray n => n
  | .regularArray c _ _ => weight c
  | .listOffsetArray _ c => weight c
  | .listArray _ _ c => weight c
  | .recordArray cs _ _ => weightList cs
  | .unionArray _ _ cs => weightList cs

/-- Total weight of a list of contents. -/
def weightList : List Content → Nat
  | [] => 0
  | c :: cs => weight c + weightList cs

end

mutual

/-- Number of wrapper layers on the deepest root-to-leaf path.  String and
bytestring contents are atomic leaves, so the layers that form them contribute
nothing, matching the documented depth notion. -/
def cdepth : Content → Nat
  | .numpyArray _ => 0
  | .emptyArray => 0
  | .stringArray _ => 0
  | .bytestringArray _ => 0
  | .regularArray c _ _ => 1 + cdepth c
  | .listOffsetArray _ c => 1 + cdepth c
  | .listArray _ _ c => 1 + cdepth c
  | .recordArray cs _ _ => 1 + cdepthList cs
  | .unionArray _ _ cs => 1 + cdepthList cs

/-- Maximum depth over a list of contents. -/
def cdepthList : List Content → Nat
  | [] => 0
  | c :: cs => max (cdepth c) (cdepthList cs)

end

/-- Tester: the node is one of the four leaf kinds. -/
def isLeaf : Content → Bool
  | .numpyArray _ => true
  | .emptyArray => true
  | .stringArray _ => true
  | .bytestringArray _ => true
  | _ => false

/-- Tester: the node is a NumpyArray leaf. -/
def isNumpy : Content → Bool
  | .numpyArray _ => true
  | _ => false

/-- Tester: the node is an EmptyArray leaf. -/
def isEmpty : Content → Bool
  | .emptyArray => true
  | _ => false

/-- Tester: the node is a string content. -/
def isString : Content → Bool
  | .stringArray _ => true
  | _ => false

/-- Tester: the node is a bytestring content. -/
def isBytestring : Content → Bool
  | .bytestringArray _ => true
  | _ => false

/-- Tester: the node is a RegularArray wrapper. -/
def isRegular : Content → Bool
  | .regularArray _ _ _ => true
  | _ => false

/-- Tester: the node is a structural ListOffsetArray wrapper (strings are
separate constructors, so they are automatically excluded). -/
def isListOffset : Content → Bool
  | .listOffsetArray _ _ => true
  | _ => false

/-- Tester: the node is a ListArray wrapper. -/
def isListArray : Content → Bool
  | .listArray _ _ _ => true
  | _ => false

/-- Tester: the node is a RecordArray wrapper. -/
def isRecord : Content → Bool
  | .recordArray _ _ _ => true
  | _ => false

/-- Tester: the node is a UnionArray wrapper. -/
def isUnion : Content → Bool
  | .unionArray _ _ _ => true
  | _ => false

mutual

/-- Does any node of the tree satisfy p (iter_contents-based any)? -/
def hasNode (p : Content → Bool) : Content → Bool
  | .regularArray c s z => p (.regularArray c s z) || hasNode p c
  | .listOffsetArray o c => p (.listOffsetArray o c) || hasNode p c
  | .listArray a b c => p (.listArray a b c) || hasNode p c
  | .recordArray cs f l => p (.recordArray cs f l) || hasNodeList p cs
  | .unionArray t i cs => p (.unionArray t i cs) || hasNodeList p cs
  | c => p c

/-- Does any node of any tree in the list satisfy p? -/
def hasNodeList (p : Content → Bool) : List Content → Bool
  | [] => false
  | c :: cs => hasNode p c || hasNodeList p cs

end

mutual

/-- No UnionArray in the tree has an immediate UnionArray child. -/
def noUnionOfUnion : Content → Bool
  | .regularArray c _ _ => noUnionOfUnion c
  | .listOffsetArray _ c => noUnionOfUnion c
  | .listArray _ _ c => noUnionOfUnion c
  | .recordArray cs _ _ => noUnionOfUnionList cs
  | .unionArray _ _ cs => (cs.all fun c => !isUnion c) && noUnionOfUnionList cs
  | _ => true

/-- noUnionOfUnion over a list of contents. -/
def noUnionOfUnionList : List Content → Bool
  | [] => true
  | c :: cs => noUnionOfUnion c && noUnionOfUnionList cs

end

mutual

/-- Some UnionArray in the tree has a UnionArray strictly below one of its
immediate children (a deeper descendant that is itself a union). -/
def unionWithDeepUnion : Content → Bool
  | .regularArray c _ _ => unionWithDeepUnion c
  | .listOffsetArray _ c => unionWithDeepUnion c
  | .listArray _ _ c => unionWithDeepUnion c
  | .recordArray cs _ _ => unionWithDeepUnionList cs
  | .unionArray _ _ cs => (cs.any fun c => hasNode isUnion c) || unionWithDeepUnionList cs
  | _ => false

/-- unionWithDeepUnion over a list of contents. -/
def unionWithDeepUnionList : List Content → Bool
  | [] => false
  | c :: cs => unionWithDeepUnion c || unionWithDeepUnionList cs

end

/-- Number of immediate children of a multi-child wrapper node. -/
def numChildren : Content → Nat
  | .recordArray cs _ _ => cs.length
  | .unionArray _ _ cs => cs.length
  | _ => 0

/-- The single user-facing configuration error.  It records the message and the
draw trace remaining at the instant it is raised, so that eagerness (how many
draws were consumed before the raise) is observable. -/
structure ConfigError where
  msg : String
  rest : Trace

/-- The message of the single configuration error. -/
def leafMsg : String := "at least one leaf content type must be allowed"

/-- Kinds of leaf content. -/
inductive LeafKind where
  | numpy | empty | str | bytestr

/-- Modelled from the spec: the leaf builder (leaf.py is absent from src; only
its tests, callers and package declaration are present).  One leaf kind is
chosen from the currently enabled kinds; EmptyArray is only offered when
min_size is 0, unless it is the sole enabled kind; the element count of a
numeric, string or bytestring leaf is drawn in [min_size, max_size]; a
ConfigurationError naming the constraint is raised, before any draw is
consumed, when every leaf kind is disabled. -/
def leaf_contents (allowNumpy allowEmpty allowString allowBytestring : Bool)
    (minSize maxSize : Nat) (tr : Trace) : Except ConfigError (Content × Trace) :=
  if !(allowNumpy || allowEmpty || allowString || allowBytestring) then
    .error ⟨leafMsg, tr⟩
  else
    let kinds : List LeafKind :=
      (if allowNumpy then [.numpy] else [])
        ++ (if allowEmpty
              && (minSize == 0 || !(allowNumpy || allowString || allowBytestring))
            then [.empty] else [])
        ++ (if allowString then [.str] else [])
        ++ (if allowBytestring then [.bytestr] else [])
    let (kind, tr1) := drawChoice kinds .empty tr
    match kind with
    | .numpy =>
      let (n, tr2) := drawNat minSize maxSize tr1
      .ok (.numpyArray n, tr2)
    | .empty => .ok (.emptyArray, tr1)
    | .str =>
      let (n, tr2) := drawNat minSize maxSize tr1
      .ok (.stringArray n, tr2)
    | .bytestr =>
      let (n, tr2) := drawNat minSize maxSize tr1
      .ok (.bytestringArray n, tr2)

/-- Sizing of a RegularArray (_size_and_zeros_length in regular_array.py): an
empty child gets a drawn size (with an independent zeros_length when the size
is zero); a non-empty child of length L gets a size sampled from the divisors
of L not exceeding maxSize, falling back to size = 0 with a drawn zeros_length
when no divisor fits. -/
def _size_and_zeros_length (contentLen maxSize maxZerosLength : Nat) (tr : Trace) :
    (Nat × Nat) × Trace :=
  if contentLen = 0 then
    let (size, tr1) := drawNat 0 maxSize tr
    if size = 0 then
      let (zl, tr2) := drawNat 0 maxZerosLength tr1
      ((0, zl), tr2)
    else ((size, 0), tr1)
  else
    let divisors := (List.range' 1 (min contentLen maxSize)).filter
      fun d => contentLen % d == 0
    if divisors.isEmpty then
      let (zl, tr1) := drawNat 0 maxZerosLength tr
      ((0, zl), tr1)
    else
      let (size, tr1) := drawChoice divisors 1 tr
      ((size, 0), tr1)

/-- RegularArray builder (regular_array_contents with its default max_size = 5
and max_zeros_length = 5, as invoked by the tree generator). -/
def regular_array_contents (content : Content) (tr : Trace) : Content × Trace :=
  let ((size, zl), tr1) := _size_and_zeros_length (clen content) 5 5 tr
  (.regularArray content size zl, tr1)

/-- Offsets built by list_offset_array_contents and list_array_contents: draw a
list length n up to MAX_LIST_LENGTH = 5, then a sorted split-point partition
[0, *sorted_splits, content_len]. -/
def draw_offsets (contentLen : Nat) (tr : Trace) : List Nat × Trace :=
  let (n, tr1) := drawNat 0 5 tr
  if n = 0 then ([0], tr1)
  else if contentLen = 0 then (List.replicate (n + 1) 0, tr1)
  else
    let (splits, tr2) := drawNats (n - 1) 0 contentLen tr1
    ([0] ++ splits.mergeSort (fun a b => a ≤ b) ++ [contentLen], tr2)

/-- ListOffsetArray builder (list_offset_array_contents). -/
def list_offset_array_contents (content : Content) (tr : Trace) : Content × Trace :=
  let (offsets, tr1) := draw_offsets (clen content) tr
  (.listOffsetArray offsets content, tr1)

/-- ListArray builder (list_array_contents): starts = offsets[:-1],
stops = offsets[1:]. -/
def list_array_contents (content : Content) (tr : Trace) : Content × Trace :=
  let (offsets, tr1) := draw_offsets (clen content) tr
  (.listArray offsets.dropLast (offsets.drop 1) content, tr1)

/-- Minimum child length of a record (0 for an empty field list), the length
awkward assigns to a RecordArray built with length=None. -/
def minLen : List Content → Nat
  | [] => 0
  | c :: cs => (cs.map clen).foldl min (clen c)

/-- RecordArray builder (record_array_contents as invoked by the tree
generator: children supplied, allow_tuple default true, max_length default
None).  Drawn field names are abstracted to distinct naturals; no claim
depends on the names. -/
def record_array_contents (cs : List Content) (tr : Trace) : Content × Trace :=
  let (isTuple, tr1) := drawBool tr
  let fields := if isTuple then none else some (List.range cs.length)
  (.recordArray cs fields (minLen cs), tr1)

/-- Selection-decode step for a permutation: repeatedly pick, by index, one of
the remaining elements.  The fuel starts at the list length, and each step
removes one element, so the fuel never cuts the decode short. -/
def permuteGo (d : α) : Nat → Nat → List α → List α
  | 0, _, _ => []
  | _+1, _, [] => []
  | f+1, h, x :: xs =>
    let i := h % (x :: xs).length
    (x :: xs).getD i d :: permuteGo d f (h / (x :: xs).length) ((x :: xs).eraseIdx i)

/-- Decode one raw draw into a permutation of xs; models the single
st.permutations draw of union_array_contents. -/
def permuteBy (d : α) (h : Nat) (xs : List α) : List α := permuteGo d xs.length h xs

/-- Compact (tag, index) pairs before shuffling: for variant k of length L,
L copies of tag k paired with index values 0..L-1, concatenated over the
variants (union_array_contents lines building tags_parts/index_parts). -/
def variant_pairs : Nat → List Nat → List (Nat × Nat)
  | _, [] => []
  | k, len :: rest => ((List.range len).map fun i => (k, i)) ++ variant_pairs (k + 1) rest

/-- UnionArray builder (union_array_contents with the child contents supplied):
build compact tags/index per variant, then shuffle both in parallel with one
random permutation. -/
def union_array_contents (cs : List Content) (tr : Trace) : Content × Trace :=
  if cs.isEmpty then (.unionArray [] [] [], tr)
  else
    let pairs := variant_pairs 0 (cs.map clen)
    let (h, tr1) := drawRaw tr
    let shuffled := permuteBy (0, 0) h pairs
    (.unionArray (shuffled.map Prod.fst) (shuffled.map Prod.snd) cs, tr1)

/-- Wrapper node kinds of the tree generator, in the sorted order in which
contents() samples them (sorted(candidates) over the Python node-type names
'list' < 'list_offset' < 'record' < 'regular' < 'union'). -/
inductive NodeType where
  | list | listOffset | record | regular | union

/-- Generation options of contents() that are fixed through the recursion. -/
structure Flags where
  allowNumpy : Bool
  allowEmpty : Bool
  allowString : Bool
  allowBytestring : Bool
  allowRegular : Bool
  allowListOffset : Bool
  allowList : Bool
  allowRecord : Bool
  allowUnion : Bool

/-- All nine generation flags enabled (the defaults of contents()). -/
def Flags.default : Flags :=
  ⟨true, true, true, true, true, true, true, true, true⟩

/-- Is at least one leaf kind enabled? -/
def leafOk (fl : Flags) : Bool :=
  fl.allowNumpy || fl.allowEmpty || fl.allowString || fl.allowBytestring

/-- Is this node of a kind that the flags disable? -/
def badNode (fl : Flags) (c : Content) : Bool :=
  (isNumpy c && !fl.allowNumpy) || (isEmpty c && !fl.allowEmpty)
    || (isString c && !fl.allowString) || (isBytestring c && !fl.allowBytestring)
    || (isRegular c && !fl.allowRegular) || (isListOffset c && !fl.allowListOffset)
    || (isListArray c && !fl.allowList) || (isRecord c && !fl.allowRecord)
    || (isUnion c && !fl.allowUnion)

/-- Gating: no node anywhere in the tree is of a kind disabled by the flags. -/
def respects (fl : Flags) (c : Content) : Bool :=
  !hasNode (badNode fl) c

/-- Sum of the lengths of a list of contents. -/
def sumLens : List Content → Nat
  | [] => 0
  | c :: cs => clen c + sumLens cs

/-- The for-loop of _st_content_lists: draw exactly k children against the
shared budget, each with max_size = max(remaining, 0). -/
def _forced_draws (child : Nat → Trace → Except ConfigError (Content × Trace)) :
    Nat → Int → List Content → Trace → Except ConfigError (Int × List Content × Trace)
  | 0, remaining, acc, tr => .ok (remaining, acc, tr)
  | k+1, remaining, acc, tr =>
    match child remaining.toNat tr with
    | .error e => .error e
    | .ok (c, tr1) => _forced_draws child k (remaining - weight c) (acc ++ [c]) tr1

/-- The while-loop of _st_content_lists: keep drawing children while a coin
flip says to continue and the remaining budget is positive.  The coin flip is
drawn before the budget test, as in the Python short-circuit conjunction.  The
fuel starts at the trace length plus one: every iteration consumes at least
the boolean draw, and on an exhausted trace the boolean draw returns false, so
the fuel never cuts the loop short. -/
def _coin_draws (child : Nat → Trace → Except ConfigError (Content × Trace)) :
    Nat → Int → List Content → Trace → Except ConfigError (List Content × Trace)
  | 0, _, acc, tr => .ok (acc, tr)
  | f+1, remaining, acc, tr =>
    let (b, tr1) := drawBool tr
    if b && decide (0 < remaining) then
      match child remaining.toNat tr1 with
      | .error e => .error e
      | .ok (c, tr2) => _coin_draws child f (remaining - weight c) (acc ++ [c]) tr2
    else .ok (acc, tr1)

/-- Lists of contents within a shared, depleting size budget
(_st_content_lists in content.py): min_size forced draws, then coin-flip
driven draws, each child drawn with max_size = max(remaining, 0) and the
realized weight subtracted from the remaining budget. -/
def _st_content_lists (child : Nat → Trace → Except ConfigError (Content × Trace))
    (minSize maxTotalSize : Nat) (tr : Trace) :
    Except ConfigError (List Content × Trace) :=
  match _forced_draws child minSize ((maxTotalSize : Int)) [] tr with
  | .error e => .error e
  | .ok (remaining, acc, tr1) => _coin_draws child (tr1.length + 1) remaining acc tr1

/-- Candidate wrapper kinds of contents(), assembled from the allow flags
(union only when both allow_union and allow_union_root hold), listed in the
sorted order in which Python samples them. -/
def node_candidates (fl : Flags) (allowUnionRoot : Bool) : List NodeType :=
  (if fl.allowList then [.list] else [])
    ++ (if fl.allowListOffset then [.listOffset] else [])
    ++ (if fl.allowRecord then [.record] else [])
    ++ (if fl.allowRegular then [.regular] else [])
    ++ (if fl.allowUnion && allowUnionRoot then [.union] else [])

/-- Build one wrapper node of the chosen kind (the match statement of
contents()): multi-child kinds draw their children through _st_content_lists
against the full budget (minimum two variants for a union, and union children
recurse with allow_union_root false); single-child kinds recurse once with the
same budget and hand the child to the matching builder. -/
def build_node (recurse : Nat → Bool → Trace → Except ConfigError (Content × Trace))
    (maxSize : Nat) : NodeType → Trace → Except ConfigError (Content × Trace)
  | .union, tr =>
    match _st_content_lists (fun ms t => recurse ms false t) 2 maxSize tr with
    | .error e => .error e
    | .ok (cs, tr1) => .ok (union_array_contents cs tr1)
  | .record, tr =>
    match _st_content_lists (fun ms t => recurse ms true t) 1 maxSize tr with
    | .error e => .error e
    | .ok (cs, tr1) => .ok (record_array_contents cs tr1)
  | .regular, tr =>
    match recurse maxSize true tr with
    | .error e => .error e
    | .ok (c, tr1) => .ok (regular_array_contents c tr1)
  | .listOffset, tr =>
    match recurse maxSize true tr with
    | .error e => .error e
    | .ok (c, tr1) => .ok (list_offset_array_contents c tr1)
  | .list, tr =>
    match recurse maxSize true tr with
    | .error e => .error e
    | .ok (c, tr1) => .ok (list_array_contents c tr1)

/-- The recursive content-tree generator (contents() in content.py), with the
max_depth recursion budget as the structurally decreasing first argument after
the fixed flags.  Remaining arguments: the size budget max_size, the
allow_union_root flag, and the draw trace. -/
def contents (fl : Flags) : Nat → Nat → Bool → Trace → Except ConfigError (Content × Trace)
  | 0 => fun maxSize _ tr =>
    -- at depth 0, both the leaf_only shortcut and the max_depth <= 0 test
    -- return a leaf without consuming any draw
    leaf_contents fl.allowNumpy fl.allowEmpty fl.allowString fl.allowBytestring 0 maxSize tr
  | d+1 => fun maxSize allowUnionRoot tr =>
    let anyWrapper := fl.allowRegular || fl.allowListOffset || fl.allowList
      || fl.allowRecord || fl.allowUnion
    if !anyWrapper || maxSize == 0 then
      leaf_contents fl.allowNumpy fl.allowEmpty fl.allowString fl.allowBytestring 0 maxSize tr
    else
      let (goDeeper, tr1) := drawBool tr
      if !goDeeper then
        leaf_contents fl.allowNumpy fl.allowEmpty fl.allowString fl.allowBytestring 0 maxSize tr1
      else
        let candidates := node_candidates fl allowUnionRoot
        if candidates.isEmpty then
          leaf_contents fl.allowNumpy fl.allowEmpty fl.allowString fl.allowBytestring 0 maxSize tr1
        else
          let (nodeType, tr2) := drawChoice candidates .list tr1
          build_node (contents fl d) maxSize nodeType tr2

/-- The combined structural invariant of every generated tree: total weight
within the size budget, wrapper depth within the depth budget, no disabled
node kind anywhere, no union directly inside a union, no union at the root
when allow_union_root is false, and a pure leaf when the depth budget is
zero. -/
def Inv (fl : Flags) (d ms : Nat) (aur : Bool) (c : Content) : Prop :=
  weight c ≤ ms ∧ cdepth c ≤ d ∧ respects fl c = true ∧ noUnionOfUnion c = true ∧
    (aur = false → isUnion c = false) ∧ (d = 0 → isLeaf c = true)

/-- Minimum of an optional cap and a value (util.safe.safe_min over the pair
(max_size_each, remaining); safe.py is absent from src, modelled from the spec
sentence "invoke f with max_size = min(B_remaining, per_draw_cap)": a missing
cap leaves the remaining budget as the bound). -/
def safeMin : Option Nat → Nat → Nat
  | none, r => r
  | some m, r => min m r

/-- Mutable closure state of CountdownDrawer (draw.py): the effective total
budget, the element count consumed so far, and the number of non-None draws. -/
structure CDState where
  maxSizeTotal : Nat
  sizeTotal : Nat
  nDraws : Nat

/-- Creation of a CountdownDrawer (draw.py line 50): before any child is
drawn, the caller-supplied total budget is replaced by a freshly drawn integer
in [0, max_size_total]. -/
def countdownInit (maxSizeTotalArg : Nat) (tr : Trace) : CDState × Trace :=
  let (b, tr1) := drawNat 0 maxSizeTotalArg tr
  (⟨b, 0, 0⟩, tr1)

/-- One call of the function returned by CountdownDrawer (_draw_content):
None once the draw limit is reached, the budget is exhausted, or the budget is
too small for min_size_each; otherwise one draw from the strategy with
max_size = safe_min(max_size_each, remaining), its length added to the
running total. -/
def countdownDraw (stFn : Nat → Nat → Trace → Content × Trace)
    (minSizeEach : Nat) (maxSizeEach : Option Nat) (maxDraws : Nat)
    (s : CDState) (tr : Trace) : Option Content × CDState × Trace :=
  let remaining : Int := (s.maxSizeTotal : Int) - (s.sizeTotal : Int)
  if s.nDraws ≥ maxDraws then (none, s, tr)
  else if remaining ≤ 0 ∨ remaining < (minSizeEach : Int) then (none, s, tr)
  else
    let maxSize := safeMin maxSizeEach remaining.toNat
    let (r, tr1) := stFn minSizeEach maxSize tr
    (some r, ⟨s.maxSizeTotal, s.sizeTotal + clen r, s.nDraws + 1⟩, tr1)

/-- Repeatedly call a CountdownDrawer draw function, collecting the results. -/
def countdownRun (stFn : Nat → Nat → Trace → Content × Trace)
    (minSizeEach : Nat) (maxSizeEach : Option Nat) (maxDraws : Nat) :
    Nat → CDState → Trace → List (Option Content)
  | 0, _, _ => []
  | k+1, s, tr =>
    let (r, s1, tr1) := countdownDraw stFn minSizeEach maxSizeEach maxDraws s tr
    r :: countdownRun stFn minSizeEach maxSizeEach maxDraws k s1 tr1

/-- Number of non-None results. -/
def countSome : List (Option Content) → Nat
  | [] => 0
  | none :: rest => countSome rest
  | some _ :: rest => 1 + countSome rest

/-- NumpyArray leaf draw of the constructors module (numpy_array_contents
abstracted to its element count, which is all the claims depend on). -/
def numpyLeaf (minSize maxSize : Nat) (tr : Trace) : Content × Trace :=
  let (n, tr1) := drawNat minSize maxSize tr
  (.numpyArray n, tr1)

/-- Nesting wrapper kinds of constructors.contents, in the order the
nesting_fns list is built (regular, list_offset, list; sampled unsorted). -/
inductive NestKind where
  | regular | listOffset | list

/-- Draw k nesting choices, one per level. -/
def drawNestKinds (fns : List NestKind) : Nat → Trace → List NestKind × Trace
  | 0, tr => ([], tr)
  | k+1, tr =>
    let (f, tr1) := drawChoice fns .regular tr
    let (fs, tr2) := drawNestKinds fns k tr1
    (f :: fs, tr2)

/-- Apply the drawn nesting functions innermost-first (the Python loop over
reversed(nesting)). -/
def applyNesting : List NestKind → Content → Trace → Content × Trace
  | [], c, tr => (c, tr)
  | f :: fs, c, tr =>
    let (c1, tr1) :=
      match f with
      | .regular => regular_array_contents c tr
      | .listOffset => list_offset_array_contents c tr
      | .list => list_array_contents c tr
    applyNesting fs c1 tr1

/-- The contents() strategy of strategies/constructors/array_.py: a NumpyArray
leaf drawn through a CountdownDrawer budget, wrapped in a drawn number of
nesting layers. -/
def constructorsContents (maxSize : Nat)
    (allowRegular allowListOffset allowList : Bool) (maxDepth : Nat)
    (tr : Trace) : Content × Trace :=
  let fns : List NestKind :=
    (if allowRegular then [.regular] else [])
      ++ (if allowListOffset then [.listOffset] else [])
      ++ (if allowList then [.list] else [])
  if fns.isEmpty || maxSize == 0 then numpyLeaf 0 maxSize tr
  else
    let (s, tr1) := countdownInit maxSize tr
    let (depth, tr2) := drawNat 0 maxDepth tr1
    let (nesting, tr3) := drawNestKinds fns depth tr2
    match countdownDraw numpyLeaf 0 none 100 s tr3 with
    | (none, _, tr4) => numpyLeaf 0 0 tr4
    | (some c, _, tr4) => applyNesting nesting.reverse c tr4

/-- Modelled from the spec: the VirtualizationLayer (section 4.5) is absent
from src.  Data buffers of a serialized content tree, one constructor per
buffer kind; the numeric, string and bytestring payloads are carried as their
element counts, matching the Content abstraction. -/
inductive BufData where
  | numpyD (n : Nat)
  | stringD (n : Nat)
  | bytestringD (n : Nat)
  | offsetsD (o : List Nat)
  | startsD (s : List Nat)
  | stopsD (s : List Nat)
  | tagsD (t : List Nat)
  | indexD (i : List Nat)

/-- Modelled from the spec: the structural form of a content tree, carrying
everything except the data buffers. -/
inductive Form where
  | numpyF
  | emptyF
  | stringF
  | bytestringF
  | regularF (size zerosLength : Nat) (sub : Form)
  | listOffsetF (sub : Form)
  | listF (sub : Form)
  | recordF (fields : Option (List Nat)) (length : Nat) (subs : List Form)
  | unionF (subs : List Form)

mutual

/-- Modelled from the spec: the form projection of a content tree. -/
def formOf : Content → Form
  | .numpyArray _ => .numpyF
  | .emptyArray => .emptyF
  | .stringArray _ => .stringF
  | .bytestringArray _ => .bytestringF
  | .regularArray c s z => .regularF s z (formOf c)
  | .listOffsetArray _ c => .listOffsetF (formOf c)
  | .listArray _ _ c => .listF (formOf c)
  | .recordArray cs f l => .recordF f l (formOfList cs)
  | .unionArray _ _ cs => .unionF (formOfList cs)

/-- formOf over a list of contents. -/
def formOfList : List Content → List Form
  | [] => []
  | c :: cs => formOf c :: formOfList cs

end

mutual

/-- Modelled from the spec: the data buffers of a content tree, in preorder
(buffer keys are positions in this list).  EmptyArray carries no data. -/
def bufsOf : Content → List BufData
  | .numpyArray n => [.numpyD n]
  | .emptyArray => []
  | .stringArray n => [.stringD n]
  | .bytestringArray n => [.bytestringD n]
  | .regularArray c _ _ => bufsOf c
  | .listOffsetArray o c => .offsetsD o :: bufsOf c
  | .listArray a b c => .startsD a :: .stopsD b :: bufsOf c
  | .recordArray cs _ _ => bufsOfList cs
  | .unionArray t i cs => .tagsD t :: .indexD i :: bufsOfList cs

/-- bufsOf over a list of contents. -/
def bufsOfList : List Content → List BufData
  | [] => []
  | c :: cs => bufsOf c ++ bufsOfList cs

end

/-- Modelled from the spec: a serialized buffer, either materialized or
replaced by a zero-argument lazy thunk. -/
inductive VBuf where
  | mat (b : BufData)
  | lazyB (th : Unit → BufData)

/-- Force a serialized buffer. -/
def force : VBuf → BufData
  | .mat b => b
  | .lazyB th => th ()

/-- Wrap each buffer according to the picked key subset, keys counted from i. -/
def wrapBufs (pick : Nat → Bool) : Nat → List BufData → List VBuf
  | _, [] => []
  | i, b :: bs =>
    (if pick i then .lazyB (fun _ => b) else .mat b) :: wrapBufs pick (i + 1) bs

/-- Modelled from the spec: the virtualization post-pass.  Serializes a
finished tree into its (form, length, buffers) projection, with the picked
subset of buffer keys replaced by zero-argument thunks. -/
def virtualize (c : Content) (pick : Nat → Bool) : Form × Nat × List VBuf :=
  (formOf c, clen c, wrapBufs pick 0 (bufsOf c))

mutual

/-- Modelled from the spec: reconstruction of a content tree from its form and
serialized buffers, consuming the buffers in preorder and forcing each one
(materialized or thunk) as it is reached. -/
def reconstruct : Form → List VBuf → Content × List VBuf
  | .numpyF, b :: rest =>
    (match force b with
     | .numpyD n => (.numpyArray n, rest)
     | _ => (.numpyArray 0, rest))
  | .numpyF, [] => (.numpyArray 0, [])
  | .emptyF, bs => (.emptyArray, bs)
  | .stringF, b :: rest =>
    (match force b with
     | .stringD n => (.stringArray n, rest)
     | _ => (.stringArray 0, rest))
  | .stringF, [] => (.stringArray 0, [])
  | .bytestringF, b :: rest =>
    (match force b with
     | .bytestringD n => (.bytestringArray n, rest)
     | _ => (.bytestringArray 0, rest))
  | .bytestringF, [] => (.bytestringArray 0, [])
  | .regularF s z sub, bs =>
    let (c, rest) := reconstruct sub bs
    (.regularArray c s z, rest)
  | .listOffsetF sub, b :: rest =>
    let (c, rest1) := reconstruct sub rest
    (match force b with
     | .offsetsD o => (.listOffsetArray o c, rest1)
     | _ => (.listOffsetArray [] c, rest1))
  | .listOffsetF sub, [] =>
    let (c, rest) := reconstruct sub []
    (.listOffsetArray [] c, rest)
  | .listF sub, a :: b :: rest =>
    let (c, rest1) := reconstruct sub rest
    (match force a, force b with
     | .startsD x, .stopsD y => (.listArray x y c, rest1)
     | _, _ => (.listArray [] [] c, rest1))
  | .listF sub, bs =>
    let (c, rest) := reconstruct sub bs
    (.listArray [] [] c, rest)
  | .recordF f l subs, bs =>
    let (cs, rest) := reconstructList subs bs
    (.recordArray cs f l, rest)
  | .unionF subs, a :: b :: rest =>
    let (cs, rest1) := reconstructList subs rest
    (match force a, force b with
     | .tagsD t, .indexD i => (.unionArray t i cs, rest1)
     | _, _ => (.unionArray [] [] cs, rest1))
  | .unionF subs, bs =>
    let (cs, rest) := reconstructList subs bs
    (.unionArray [] [] cs, rest)

/-- reconstruct over a list of forms. -/
def reconstructList : List Form → List VBuf → List Content × List VBuf
  | [], bs => ([], bs)
  | f :: fs, bs =>
    let (c, rest) := reconstruct f bs
    let (cs, rest1) := reconstructList fs rest
    (c :: cs, rest1)

end

/-- A draw trace that keeps the children loop of _st_content_lists running:
k repetitions of (continue-coin true, leaf coin, EmptyArray kind choice) —
each accepted draw has zero weight while the budget stays positive — followed
by one final continue-coin false. -/
def zeroProgressTrace : Nat → Trace
  | 0 => [0]
  | k+1 => 1 :: 0 :: 1 :: zeroProgressTrace k

/-! Basic lemmas about the draw primitives and the measures. -/

theorem drawNat_le (lo hi : Nat) (tr : Trace) : (drawNat lo hi tr).1 ≤ hi := by
  cases tr <;> simp only [drawNat] <;> omega

theorem drawNat_ge (lo hi : Nat) (h : lo ≤ hi) (tr : Trace) :
    lo ≤ (drawNat lo hi tr).1 := by
  cases tr with
  | nil => simp [drawNat]; omega
  | cons a t => simp only [drawNat]; omega

theorem getD_mem_of_lt (xs : List α) (i : Nat) (d : α) (h : i < xs.length) :
    xs.getD i d ∈ xs := by
  rw [List.getD_eq_getElem?_getD, List.getElem?_eq_getElem h]
  exact List.getElem_mem h

theorem drawChoice_mem (xs : List α) (d : α) (tr : Trace) (h : xs ≠ []) :
    (drawChoice xs d tr).1 ∈ xs := by
  have hl : 0 < xs.length := List.length_pos.mpr h
  cases tr with
  | nil => exact getD_mem_of_lt xs 0 d hl
  | cons a t => exact getD_mem_of_lt xs _ d (Nat.mod_lt _ hl)

theorem weightList_append (xs ys : List Content) :
    weightList (xs ++ ys) = weightList xs + weightList ys := by
  induction xs with
  | nil => simp [weightList]
  | cons c cs ih => simp [weightList, ih]; omega

theorem hasNodeList_eq_false (p : Content → Bool) (cs : List Content)
    (h : ∀ c ∈ cs, hasNode p c = false) : hasNodeList p cs = false := by
  induction cs with
  | nil => simp [hasNodeList]
  | cons c cs ih =>
    simp only [hasNodeList, Bool.or_eq_false_iff]
    exact ⟨h c (by simp), ih fun c hc => h c (by simp [hc])⟩

theorem noUnionOfUnionList_eq_true (cs : List Content)
    (h : ∀ c ∈ cs, noUnionOfUnion c = true) : noUnionOfUnionList cs = true := by
  induction cs with
  | nil => simp [noUnionOfUnionList]
  | cons c cs ih =>
    simp only [noUnionOfUnionList, Bool.and_eq_true]
    exact ⟨h c (by simp), ih fun c hc => h c (by simp [hc])⟩

theorem cdepthList_le (cs : List Content) (k : Nat)
    (h : ∀ c ∈ cs, cdepth c ≤ k) : cdepthList cs ≤ k := by
  induction cs with
  | nil => simp [cdepthList]
  | cons c cs ih =>
    simp only [cdepthList, max_le_iff]
    exact ⟨h c (by simp), ih fun c hc => h c (by simp [hc])⟩

theorem mem_ite_singleton {c : Prop} [Decidable c] {a x : α}
    (h : a ∈ (if c then [x] else [])) : c ∧ a = x := by
  split at h
  · simp at h
    exact ⟨‹_›, h⟩
  · simp at h

/-! Lemmas about the leaf builder. -/

theorem leaf_contents_err (aN aE aS aB : Bool) (minS maxS : Nat) (tr : Trace)
    (h : (aN || aE || aS || aB) = false) :
    leaf_contents aN aE aS aB minS maxS tr = .error ⟨leafMsg, tr⟩ := by
  simp [leaf_contents, h]

theorem leaf_contents_ok (aN aE aS aB : Bool) (minS maxS : Nat) (tr : Trace)
    (h : (aN || aE || aS || aB) = true) :
    ∃ c tr1, leaf_contents aN aE aS aB minS maxS tr = .ok (c, tr1) ∧
      weight c ≤ maxS ∧
      ((∃ n, c = .numpyArray n ∧ aN = true) ∨ (c = .emptyArray ∧ aE = true) ∨
        (∃ n, c = .stringArray n ∧ aS = true) ∨
        (∃ n, c = .bytestringArray n ∧ aB = true)) := by
  rw [leaf_contents]
  rw [h]
  simp only [Bool.not_true, Bool.false_eq_true, if_false]
  set kinds := (if aN = true then [LeafKind.numpy] else [])
      ++ (if (aE && (minS == 0 || !(aN || aS || aB))) = true then [LeafKind.empty] else [])
      ++ (if aS = true then [LeafKind.str] else [])
      ++ (if aB = true then [LeafKind.bytestr] else []) with hkinds
  have hne : kinds ≠ [] := by
    rw [hkinds]
    cases aN <;> cases aE <;> cases aS <;> cases aB <;> simp_all
  have hm := drawChoice_mem kinds LeafKind.empty tr hne
  rcases hdc : drawChoice kinds LeafKind.empty tr with ⟨kind, tr1⟩
  rw [hdc] at hm
  rw [hkinds] at hm
  simp only [List.mem_append] at hm
  cases kind with
  | numpy =>
    refine ⟨.numpyArray (drawNat minS maxS tr1).1, (drawNat minS maxS tr1).2, rfl,
      drawNat_le minS maxS tr1, ?_⟩
    have haN : aN = true := by
      rcases hm with ((hm | hm) | hm) | hm
      · exact (mem_ite_singleton hm).1
      · exact LeafKind.noConfusion (mem_ite_singleton hm).2
      · exact LeafKind.noConfusion (mem_ite_singleton hm).2
      · exact LeafKind.noConfusion (mem_ite_singleton hm).2
    exact Or.inl ⟨_, rfl, haN⟩
  | empty =>
    refine ⟨.emptyArray, tr1, rfl, by simp [weight], ?_⟩
    have haE : aE = true := by
      rcases hm with ((hm | hm) | hm) | hm
      · exact LeafKind.noConfusion (mem_ite_singleton hm).2
      · have h2 := (mem_ite_singleton hm).1
        rw [Bool.and_eq_true] at h2
        exact h2.1
      · exact LeafKind.noConfusion (mem_ite_singleton hm).2
      · exact LeafKind.noConfusion (mem_ite_singleton hm).2
    exact Or.inr (Or.inl ⟨rfl, haE⟩)
  | str =>
    refine ⟨.stringArray (drawNat minS maxS tr1).1, (drawNat minS maxS tr1).2, rfl,
      drawNat_le minS maxS tr1, ?_⟩
    have haS : aS = true := by
      rcases hm with ((hm | hm) | hm) | hm
      · exact LeafKind.noConfusion (mem_ite_singleton hm).2
      · exact LeafKind.noConfusion (mem_ite_singleton hm).2
      · exact (mem_ite_singleton hm).1
      · exact LeafKind.noConfusion (mem_ite_singleton hm).2
    exact Or.inr (Or.inr (Or.inl ⟨_, rfl, haS⟩))
  | bytestr =>
    refine ⟨.bytestringArray (drawNat minS maxS tr1).1, (drawNat minS maxS tr1).2, rfl,
      drawNat_le minS maxS tr1, ?_⟩
    have haB : aB = true := by
      rcases hm with ((hm | hm) | hm) | hm
      · exact LeafKind.noConfusion (mem_ite_singleton hm).2
      · exact LeafKind.noConfusion (mem_ite_singleton hm).2
      · exact LeafKind.noConfusion (mem_ite_singleton hm).2
      · exact (mem_ite_singleton hm).1
    exact Or.inr (Or.inr (Or.inr ⟨_, rfl, haB⟩))

/-! Gating helper lemmas. -/

mutual

theorem hasNode_mono (p q : Content → Bool) (hpq : ∀ x, p x = true → q x = true) :
    ∀ c, hasNode p c = true → hasNode q c = true
  | .numpyArray n => by simpa [hasNode] using hpq _
  | .emptyArray => by simpa [hasNode] using hpq _
  | .stringArray n => by simpa [hasNode] using hpq _
  | .bytestringArray n => by simpa [hasNode] using hpq _
  | .regularArray c s z => by
    simp only [hasNode, Bool.or_eq_true]
    rintro (h | h)
    · exact Or.inl (hpq _ h)
    · exact Or.inr (hasNode_mono p q hpq c h)
  | .listOffsetArray o c => by
    simp only [hasNode, Bool.or_eq_true]
    rintro (h | h)
    · exact Or.inl (hpq _ h)
    · exact Or.inr (hasNode_mono p q hpq c h)
  | .listArray a b c => by
    simp only [hasNode, Bool.or_eq_true]
    rintro (h | h)
    · exact Or.inl (hpq _ h)
    · exact Or.inr (hasNode_mono p q hpq c h)
  | .recordArray cs f l => by
    simp only [hasNode, Bool.or_eq_true]
    rintro (h | h)
    · exact Or.inl (hpq _ h)
    · exact Or.inr (hasNodeList_mono p q hpq cs h)
  | .unionArray t i cs => by
    simp only [hasNode, Bool.or_eq_true]
    rintro (h | h)
    · exact Or.inl (hpq _ h)
    · exact Or.inr (hasNodeList_mono p q hpq cs h)

theorem hasNodeList_mono (p q : Content → Bool) (hpq : ∀ x, p x = true → q x = true) :
    ∀ cs, hasNodeList p cs = true → hasNodeList q cs = true
  | [] => by simp [hasNodeList]
  | c :: cs => by
    simp only [hasNodeList, Bool.or_eq_true]
    rintro (h | h)
    · exact Or.inl (hasNode_mono p q hpq c h)
    · exact Or.inr (hasNodeList_mono p q hpq cs h)

end

theorem respects_no_disabled (fl : Flags) (c : Content) (h : respects fl c = true)
    (p : Content → Bool) (hbad : ∀ x, p x = true → badNode fl x = true) :
    hasNode p c = false := by
  simp only [respects, Bool.not_eq_true'] at h
  cases hp : hasNode p c with
  | false => rfl
  | true => rw [hasNode_mono p (badNode fl) hbad c hp] at h; exact h

theorem respects_leaf (fl : Flags) (c : Content)
    (hd : (∃ n, c = .numpyArray n ∧ fl.allowNumpy = true)
      ∨ (c = .emptyArray ∧ fl.allowEmpty = true)
      ∨ (∃ n, c = .stringArray n ∧ fl.allowString = true)
      ∨ (∃ n, c = .bytestringArray n ∧ fl.allowBytestring = true)) :
    respects fl c = true := by
  rcases hd with ⟨n, rfl, hf⟩ | ⟨rfl, hf⟩ | ⟨n, rfl, hf⟩ | ⟨n, rfl, hf⟩ <;>
    simp [respects, hasNode, badNode, isNumpy, isEmpty, isString, isBytestring,
      isRegular, isListOffset, isListArray, isRecord, isUnion, hf]

theorem leaf_facts (fl : Flags) (c : Content)
    (hd : (∃ n, c = .numpyArray n ∧ fl.allowNumpy = true)
      ∨ (c = .emptyArray ∧ fl.allowEmpty = true)
      ∨ (∃ n, c = .stringArray n ∧ fl.allowString = true)
      ∨ (∃ n, c = .bytestringArray n ∧ fl.allowBytestring = true)) :
    isLeaf c = true ∧ cdepth c = 0 ∧ noUnionOfUnion c = true ∧ isUnion c = false := by
  rcases hd with ⟨n, rfl, hf⟩ | ⟨rfl, hf⟩ | ⟨n, rfl, hf⟩ | ⟨n, rfl, hf⟩ <;>
    simp [isLeaf, cdepth, noUnionOfUnion, isUnion]

theorem respects_regular (fl : Flags) (c : Content) (s z : Nat)
    (h : respects fl c = true) (hf : fl.allowRegular = true) :
    respects fl (.regularArray c s z) = true := by
  simp only [respects, hasNode, Bool.not_eq_true', Bool.or_eq_false_iff] at h ⊢
  refine ⟨?_, h⟩
  simp [badNode, isNumpy, isEmpty, isString, isBytestring, isRegular, isListOffset,
    isListArray, isRecord, isUnion, hf]

theorem respects_list_offset (fl : Flags) (c : Content) (o : List Nat)
    (h : respects fl c = true) (hf : fl.allowListOffset = true) :
    respects fl (.listOffsetArray o c) = true := by
  simp only [respects, hasNode, Bool.not_eq_true', Bool.or_eq_false_iff] at h ⊢
  refine ⟨?_, h⟩
  simp [badNode, isNumpy, isEmpty, isString, isBytestring, isRegular, isListOffset,
    isListArray, isRecord, isUnion, hf]

theorem respects_list_array (fl : Flags) (c : Content) (a b : List Nat)
    (h : respects fl c = true) (hf : fl.allowList = true) :
    respects fl (.listArray a b c) = true := by
  simp only [respects, hasNode, Bool.not_eq_true', Bool.or_eq_false_iff] at h ⊢
  refine ⟨?_, h⟩
  simp [badNode, isNumpy, isEmpty, isString, isBytestring, isRegular, isListOffset,
    isListArray, isRecord, isUnion, hf]

theorem respects_record (fl : Flags) (cs : List Content) (f : Option (List Nat)) (l : Nat)
    (h : ∀ c ∈ cs, respects fl c = true) (hf : fl.allowRecord = true) :
    respects fl (.recordArray cs f l) = true := by
  simp only [respects, hasNode, Bool.not_eq_true', Bool.or_eq_false_iff]
  constructor
  · simp [badNode, isNumpy, isEmpty, isString, isBytestring, isRegular, isListOffset,
      isListArray, isRecord, isUnion, hf]
  · refine hasNodeList_eq_false _ cs fun c hc => ?_
    have := h c hc
    simpa only [respects, Bool.not_eq_true'] using this

theorem respects_union (fl : Flags) (cs : List Content) (t i : List Nat)
    (h : ∀ c ∈ cs, respects fl c = true) (hf : fl.allowUnion = true) :
    respects fl (.unionArray t i cs) = true := by
  simp only [respects, hasNode, Bool.not_eq_true', Bool.or_eq_false_iff]
  constructor
  · simp [badNode, isNumpy, isEmpty, isString, isBytestring, isRegular, isListOffset,
      isListArray, isRecord, isUnion, hf]
  · refine hasNodeList_eq_false _ cs fun c hc => ?_
    have := h c hc
    simpa only [respects, Bool.not_eq_true'] using this

/-! Shape lemmas for the wrapper builders. -/

theorem regular_array_contents_shape (c : Content) (tr : Trace) :
    ∃ s z tr1, regular_array_contents c tr = (.regularArray c s z, tr1) :=
  ⟨(_size_and_zeros_length (clen c) 5 5 tr).1.1,
    (_size_and_zeros_length (clen c) 5 5 tr).1.2,
    (_size_and_zeros_length (clen c) 5 5 tr).2, rfl⟩

theorem list_offset_array_contents_shape (c : Content) (tr : Trace) :
    ∃ o tr1, list_offset_array_contents c tr = (.listOffsetArray o c, tr1) :=
  ⟨(draw_offsets (clen c) tr).1, (draw_offsets (clen c) tr).2, rfl⟩

theorem list_array_contents_shape (c : Content) (tr : Trace) :
    ∃ a b tr1, list_array_contents c tr = (.listArray a b c, tr1) :=
  ⟨(draw_offsets (clen c) tr).1.dropLast, (draw_offsets (clen c) tr).1.drop 1,
    (draw_offsets (clen c) tr).2, rfl⟩

theorem record_array_contents_shape (cs : List Content) (tr : Trace) :
    ∃ f tr1, record_array_contents cs tr = (.recordArray cs f (minLen cs), tr1) := by
  rcases hdb : drawBool tr with ⟨b, tr1⟩
  cases b <;> simp [record_array_contents, hdb]

theorem union_array_contents_shape (cs : List Content) (tr : Trace) (h : cs ≠ []) :
    ∃ t i tr1, union_array_contents cs tr = (.unionArray t i cs, tr1) := by
  have he : cs.isEmpty = false := by
    cases cs with
    | nil => exact absurd rfl h
    | cons a l => rfl
  simp only [union_array_contents, he, Bool.false_eq_true, if_false]
  exact ⟨_, _, _, rfl⟩

/-! Budget-loop lemmas for _st_content_lists. -/

theorem _forced_draws_inv (child : Nat → Trace → Except ConfigError (Content × Trace))
    (P : Content → Prop)
    (hc : ∀ ms tr c tr1, child ms tr = .ok (c, tr1) → P c ∧ weight c ≤ ms) :
    ∀ k rem acc tr rem1 acc1 tr1,
      _forced_draws child k rem acc tr = .ok (rem1, acc1, tr1) →
      0 ≤ rem → (∀ c ∈ acc, P c) →
      0 ≤ rem1 ∧ (∀ c ∈ acc1, P c) ∧
        (weightList acc1 : Int) + rem1 = (weightList acc : Int) + rem ∧
        acc1.length = acc.length + k := by
  intro k
  induction k with
  | zero =>
    intro rem acc tr rem1 acc1 tr1 heq h0 hacc
    simp only [_forced_draws] at heq
    injection heq with heq
    obtain ⟨rfl, rfl, rfl⟩ : rem = rem1 ∧ acc = acc1 ∧ tr = tr1 := by
      refine ⟨congrArg Prod.fst heq, ?_, ?_⟩
      · exact congrArg (fun p => p.2.1) heq
      · exact congrArg (fun p => p.2.2) heq
    exact ⟨h0, hacc, by omega, by omega⟩
  | succ k ih =>
    intro rem acc tr rem1 acc1 tr1 heq h0 hacc
    simp only [_forced_draws] at heq
    rcases hch : child rem.toNat tr with e | ⟨c, tr2⟩
    · rw [hch] at heq; exact absurd heq (by simp)
    · rw [hch] at heq
      have hcw := hc rem.toNat tr c tr2 hch
      have hwle : (weight c : Int) ≤ rem := by
        have := hcw.2
        omega
      have h0' : 0 ≤ rem - (weight c : Int) := by omega
      have hacc' : ∀ x ∈ acc ++ [c], P x := by
        intro x hx
        rcases List.mem_append.mp hx with hx | hx
        · exact hacc x hx
        · rw [List.mem_singleton.mp hx]; exact hcw.1
      have hrec := ih (rem - weight c) (acc ++ [c]) tr2 rem1 acc1 tr1 heq h0' hacc'
      refine ⟨hrec.1, hrec.2.1, ?_, ?_⟩
      · have := hrec.2.2.1
        rw [weightList_append] at this
        simp only [weightList] at this
        push_cast at this ⊢
        omega
      · have := hrec.2.2.2
        simp at this
        omega

theorem _coin_draws_inv (child : Nat → Trace → Except ConfigError (Content × Trace))
    (P : Content → Prop)
    (hc : ∀ ms tr c tr1, child ms tr = .ok (c, tr1) → P c ∧ weight c ≤ ms) :
    ∀ f rem acc tr cs tr1,
      _coin_draws child f rem acc tr = .ok (cs, tr1) →
      0 ≤ rem → (∀ c ∈ acc, P c) →
      (∀ c ∈ cs, P c) ∧ (weightList cs : Int) ≤ (weightList acc : Int) + rem ∧
        acc.length ≤ cs.length := by
  intro f
  induction f with
  | zero =>
    intro rem acc tr cs tr1 heq h0 hacc
    simp only [_coin_draws] at heq
    injection heq with heq
    obtain ⟨rfl, rfl⟩ : acc = cs ∧ tr = tr1 :=
      ⟨congrArg Prod.fst heq, congrArg Prod.snd heq⟩
    exact ⟨hacc, by omega, le_refl _⟩
  | succ f ih =>
    intro rem acc tr cs tr1 heq h0 hacc
    simp only [_coin_draws] at heq
    rcases hdb : drawBool tr with ⟨b, trb⟩
    rw [hdb] at heq
    simp only at heq
    by_cases hcond : (b && decide (0 < rem)) = true
    · rw [if_pos hcond] at heq
      rcases hch : child rem.toNat trb with e | ⟨c, tr2⟩
      · rw [hch] at heq; exact absurd heq (by simp)
      · rw [hch] at heq
        have hcw := hc rem.toNat trb c tr2 hch
        have hwle : (weight c : Int) ≤ rem := by
          have := hcw.2
          omega
        have h0' : 0 ≤ rem - (weight c : Int) := by omega
        have hacc' : ∀ x ∈ acc ++ [c], P x := by
          intro x hx
          rcases List.mem_append.mp hx with hx | hx
          · exact hacc x hx
          · rw [List.mem_singleton.mp hx]; exact hcw.1
        have hrec := ih (rem - weight c) (acc ++ [c]) tr2 cs tr1 heq h0' hacc'
        refine ⟨hrec.1, ?_, ?_⟩
        · have := hrec.2.1
          rw [weightList_append] at this
          simp only [weightList] at this
          push_cast at this ⊢
          omega
        · have := hrec.2.2
          simp at this
          omega
    · rw [if_neg hcond] at heq
      injection heq with heq
      obtain ⟨rfl, rfl⟩ : acc = cs ∧ trb = tr1 :=
        ⟨congrArg Prod.fst heq, congrArg Prod.snd heq⟩
      exact ⟨hacc, by omega, le_refl _⟩

theorem _st_content_lists_inv (child : Nat → Trace → Except ConfigError (Content × Trace))
    (P : Content → Prop)
    (hc : ∀ ms tr c tr1, child ms tr = .ok (c, tr1) → P c ∧ weight c ≤ ms) :
    ∀ minS maxT tr cs tr1,
      _st_content_lists child minS maxT tr = .ok (cs, tr1) →
      (∀ c ∈ cs, P c) ∧ weightList cs ≤ maxT ∧ minS ≤ cs.length := by
  intro minS maxT tr cs tr1 heq
  simp only [_st_content_lists] at heq
  rcases hfd : _forced_draws child minS ((maxT : Int)) [] tr with e | ⟨rem, acc, tr2⟩
  · rw [hfd] at heq; exact absurd heq (by simp)
  · rw [hfd] at heq
    have h1 := _forced_draws_inv child P hc minS ((maxT : Int)) [] tr rem acc tr2 hfd
      (by omega) (by simp)
    have h2 := _coin_draws_inv child P hc (tr2.length + 1) rem acc tr2 cs tr1 heq
      h1.1 h1.2.1
    refine ⟨h2.1, ?_, ?_⟩
    · have ha := h1.2.2.1
      have hb := h2.2.1
      simp only [weightList] at ha
      omega
    · have ha := h1.2.2.2
      have hb := h2.2.2
      simp at ha
      omega

theorem _forced_draws_ok (child : Nat → Trace → Except ConfigError (Content × Trace))
    (hok : ∀ ms tr, ∃ c tr1, child ms tr = .ok (c, tr1)) :
    ∀ k rem acc tr, ∃ out, _forced_draws child k rem acc tr = .ok out := by
  intro k
  induction k with
  | zero => intro rem acc tr; exact ⟨_, rfl⟩
  | succ k ih =>
    intro rem acc tr
    obtain ⟨c, tr1, hch⟩ := hok rem.toNat tr
    simp only [_forced_draws, hch]
    exact ih _ _ _

theorem _coin_draws_ok (child : Nat → Trace → Except ConfigError (Content × Trace))
    (hok : ∀ ms tr, ∃ c tr1, child ms tr = .ok (c, tr1)) :
    ∀ f rem acc tr, ∃ out, _coin_draws child f rem acc tr = .ok out := by
  intro f
  induction f with
  | zero => intro rem acc tr; exact ⟨_, rfl⟩
  | succ f ih =>
    intro rem acc tr
    rcases hdb : drawBool tr with ⟨b, trb⟩
    simp only [_coin_draws, hdb]
    by_cases hcond : (b && decide (0 < rem)) = true
    · rw [if_pos hcond]
      obtain ⟨c, tr1, hch⟩ := hok rem.toNat trb
      rw [hch]
      exact ih _ _ _
    · rw [if_neg hcond]
      exact ⟨_, rfl⟩

theorem _st_content_lists_ok (child : Nat → Trace → Except ConfigError (Content × Trace))
    (hok : ∀ ms tr, ∃ c tr1, child ms tr = .ok (c, tr1)) :
    ∀ minS maxT tr, ∃ cs tr1, _st_content_lists child minS maxT tr = .ok (cs, tr1) := by
  intro minS maxT tr
  obtain ⟨⟨rem, acc, tr2⟩, hfd⟩ := _forced_draws_ok child hok minS ((maxT : Int)) [] tr
  obtain ⟨⟨cs, tr1⟩, hcd⟩ := _coin_draws_ok child hok (tr2.length + 1) rem acc tr2
  exact ⟨cs, tr1, by simp only [_st_content_lists, hfd, hcd]⟩

theorem _st_content_lists_err (child : Nat → Trace → Except ConfigError (Content × Trace))
    (herr : ∀ ms tr, ∃ rest, child ms tr = .error ⟨leafMsg, rest⟩) :
    ∀ minS maxT tr, 1 ≤ minS →
      ∃ rest, _st_content_lists child minS maxT tr = .error ⟨leafMsg, rest⟩ := by
  intro minS maxT tr h1
  rcases minS with _ | k
  · omega
  · obtain ⟨rest, hch⟩ := herr ((maxT : Int)).toNat tr
    exact ⟨rest, by simp only [_st_content_lists, _forced_draws, hch]⟩

/-! Candidate-list membership lemmas. -/

theorem mem_candidates_list {fl : Flags} {aur : Bool}
    (h : NodeType.list ∈ node_candidates fl aur) : fl.allowList = true := by
  simp only [node_candidates, List.mem_append] at h
  rcases h with ((((h | h) | h) | h) | h) <;>
    first
    | exact (mem_ite_singleton h).1
    | exact NodeType.noConfusion (mem_ite_singleton h).2

theorem mem_candidates_list_offset {fl : Flags} {aur : Bool}
    (h : NodeType.listOffset ∈ node_candidates fl aur) : fl.allowListOffset = true := by
  simp only [node_candidates, List.mem_append] at h
  rcases h with ((((h | h) | h) | h) | h) <;>
    first
    | exact (mem_ite_singleton h).1
    | exact NodeType.noConfusion (mem_ite_singleton h).2

theorem mem_candidates_record {fl : Flags} {aur : Bool}
    (h : NodeType.record ∈ node_candidates fl aur) : fl.allowRecord = true := by
  simp only [node_candidates, List.mem_append] at h
  rcases h with ((((h | h) | h) | h) | h) <;>
    first
    | exact (mem_ite_singleton h).1
    | exact NodeType.noConfusion (mem_ite_singleton h).2

theorem mem_candidates_regular {fl : Flags} {aur : Bool}
    (h : NodeType.regular ∈ node_candidates fl aur) : fl.allowRegular = true := by
  simp only [node_candidates, List.mem_append] at h
  rcases h with ((((h | h) | h) | h) | h) <;>
    first
    | exact (mem_ite_singleton h).1
    | exact NodeType.noConfusion (mem_ite_singleton h).2

theorem mem_candidates_union {fl : Flags} {aur : Bool}
    (h : NodeType.union ∈ node_candidates fl aur) :
    fl.allowUnion = true ∧ aur = true := by
  simp only [node_candidates, List.mem_append] at h
  rcases h with ((((h | h) | h) | h) | h) <;>
    first
    | (have h2 := (mem_ite_singleton h).1; rw [Bool.and_eq_true] at h2; exact h2)
    | exact NodeType.noConfusion (mem_ite_singleton h).2

/-! The master invariant theorem for the tree generator. -/

theorem inv_of_ok {fl : Flags} {d : Nat}
    (ih : ∀ ms aur tr, ∃ c tr1, contents fl d ms aur tr = .ok (c, tr1) ∧ Inv fl d ms aur c) :
    ∀ ms aur tr c tr1, contents fl d ms aur tr = .ok (c, tr1) → Inv fl d ms aur c := by
  intro ms aur tr c tr1 heq
  obtain ⟨c2, tr2, heq2, hinv⟩ := ih ms aur tr
  rw [heq] at heq2
  injection heq2 with heq2
  have hc : c = c2 := congrArg Prod.fst heq2
  rw [hc]
  exact hinv

theorem leaf_inv_at (fl : Flags) (hleaf : leafOk fl = true) (d ms : Nat) (aur : Bool)
    (tr : Trace) :
    ∃ c tr1,
      leaf_contents fl.allowNumpy fl.allowEmpty fl.allowString fl.allowBytestring
        0 ms tr = .ok (c, tr1) ∧ Inv fl d ms aur c := by
  obtain ⟨c, tr1, heq, hw, hd⟩ :=
    leaf_contents_ok fl.allowNumpy fl.allowEmpty fl.allowString fl.allowBytestring 0 ms tr
      (by simpa [leafOk] using hleaf)
  have hfacts := leaf_facts fl c hd
  have hresp := respects_leaf fl c hd
  refine ⟨c, tr1, heq, hw, ?_, hresp, hfacts.2.2.1, fun _ => hfacts.2.2.2,
    fun _ => hfacts.1⟩
  rw [hfacts.2.1]
  exact Nat.zero_le d

theorem build_node_inv (fl : Flags) (d : Nat)
    (recurse : Nat → Bool → Trace → Except ConfigError (Content × Trace))
    (hok : ∀ ms aur tr, ∃ c tr1, recurse ms aur tr = .ok (c, tr1))
    (hinv : ∀ ms aur tr c tr1, recurse ms aur tr = .ok (c, tr1) → Inv fl d ms aur c)
    (ms : Nat) (nt : NodeType) (tr : Trace)
    (hflag : (match nt with
      | .list => fl.allowList
      | .listOffset => fl.allowListOffset
      | .record => fl.allowRecord
      | .regular => fl.allowRegular
      | .union => fl.allowUnion) = true) :
    ∃ c tr1, build_node recurse ms nt tr = .ok (c, tr1) ∧
      weight c ≤ ms ∧ cdepth c ≤ d + 1 ∧ respects fl c = true ∧
      noUnionOfUnion c = true ∧ (nt ≠ .union → isUnion c = false) := by
  cases nt with
  | union =>
    have hchild : ∀ ms2 tr2 c tr3,
        (fun ms t => recurse ms false t) ms2 tr2 = .ok (c, tr3) →
        (cdepth c ≤ d ∧ respects fl c = true ∧ noUnionOfUnion c = true ∧
          isUnion c = false) ∧ weight c ≤ ms2 := by
      intro ms2 tr2 c tr3 heq
      have h := hinv ms2 false tr2 c tr3 heq
      exact ⟨⟨h.2.1, h.2.2.1, h.2.2.2.1, h.2.2.2.2.1 rfl⟩, h.1⟩
    obtain ⟨cs, tr1, hlist⟩ :=
      _st_content_lists_ok _ (fun ms2 tr2 => hok ms2 false tr2) 2 ms tr
    have hli := _st_content_lists_inv _ _ hchild 2 ms tr cs tr1 hlist
    have hne : cs ≠ [] := by
      intro h0
      have := hli.2.2
      rw [h0] at this
      simp at this
    obtain ⟨t, i, tr2, hu⟩ := union_array_contents_shape cs tr1 hne
    refine ⟨.unionArray t i cs, tr2, by simp only [build_node, hlist, hu], ?_, ?_, ?_, ?_,
      fun h0 => absurd rfl h0⟩
    · simpa [weight] using hli.2.1
    · have hdl : cdepthList cs ≤ d := cdepthList_le cs d fun c hc => (hli.1 c hc).1
      simp only [cdepth]
      omega
    · exact respects_union fl cs t i (fun c hc => (hli.1 c hc).2.1) hflag
    · simp only [noUnionOfUnion, Bool.and_eq_true]
      constructor
      · rw [List.all_eq_true]
        intro c hc
        simp [(hli.1 c hc).2.2.2]
      · exact noUnionOfUnionList_eq_true cs fun c hc => (hli.1 c hc).2.2.1
  | record =>
    have hchild : ∀ ms2 tr2 c tr3,
        (fun ms t => recurse ms true t) ms2 tr2 = .ok (c, tr3) →
        (cdepth c ≤ d ∧ respects fl c = true ∧ noUnionOfUnion c = true) ∧
          weight c ≤ ms2 := by
      intro ms2 tr2 c tr3 heq
      have h := hinv ms2 true tr2 c tr3 heq
      exact ⟨⟨h.2.1, h.2.2.1, h.2.2.2.1⟩, h.1⟩
    obtain ⟨cs, tr1, hlist⟩ :=
      _st_content_lists_ok _ (fun ms2 tr2 => hok ms2 true tr2) 1 ms tr
    have hli := _st_content_lists_inv _ _ hchild 1 ms tr cs tr1 hlist
    obtain ⟨f, tr2, hr⟩ := record_array_contents_shape cs tr1
    refine ⟨.recordArray cs f (minLen cs), tr2, by simp only [build_node, hlist, hr],
      ?_, ?_, ?_, ?_, fun _ => by simp [isUnion]⟩
    · simpa [weight] using hli.2.1
    · have hdl : cdepthList cs ≤ d := cdepthList_le cs d fun c hc => (hli.1 c hc).1
      simp only [cdepth]
      omega
    · exact respects_record fl cs f (minLen cs) (fun c hc => (hli.1 c hc).2.1) hflag
    · simp only [noUnionOfUnion]
      exact noUnionOfUnionList_eq_true cs fun c hc => (hli.1 c hc).2.2
  | regular =>
    obtain ⟨c, tr1, hrec⟩ := hok ms true tr
    have hi := hinv ms true tr c tr1 hrec
    obtain ⟨s, z, tr2, hra⟩ := regular_array_contents_shape c tr1
    refine ⟨.regularArray c s z, tr2, by simp only [build_node, hrec, hra], ?_, ?_, ?_,
      ?_, fun _ => by simp [isUnion]⟩
    · simpa [weight] using hi.1
    · have := hi.2.1
      simp only [cdepth]
      omega
    · exact respects_regular fl c s z hi.2.2.1 hflag
    · simpa [noUnionOfUnion] using hi.2.2.2.1
  | listOffset =>
    obtain ⟨c, tr1, hrec⟩ := hok ms true tr
    have hi := hinv ms true tr c tr1 hrec
    obtain ⟨o, tr2, hra⟩ := list_offset_array_contents_shape c tr1
    refine ⟨.listOffsetArray o c, tr2, by simp only [build_node, hrec, hra], ?_, ?_, ?_,
      ?_, fun _ => by simp [isUnion]⟩
    · simpa [weight] using hi.1
    · have := hi.2.1
      simp only [cdepth]
      omega
    · exact respects_list_offset fl c o hi.2.2.1 hflag
    · simpa [noUnionOfUnion] using hi.2.2.2.1
  | list =>
    obtain ⟨c, tr1, hrec⟩ := hok ms true tr
    have hi := hinv ms true tr c tr1 hrec
    obtain ⟨a, b, tr2, hra⟩ := list_array_contents_shape c tr1
    refine ⟨.listArray a b c, tr2, by simp only [build_node, hrec, hra], ?_, ?_, ?_,
      ?_, fun _ => by simp [isUnion]⟩
    · simpa [weight] using hi.1
    · have := hi.2.1
      simp only [cdepth]
      omega
    · exact respects_list_array fl c a b hi.2.2.1 hflag
    · simpa [noUnionOfUnion] using hi.2.2.2.1

theorem contents_ok_inv (fl : Flags) (hleaf : leafOk fl = true) :
    ∀ d ms aur tr, ∃ c tr1, contents fl d ms aur tr = .ok (c, tr1) ∧ Inv fl d ms aur c := by
  intro d
  induction d with
  | zero =>
    intro ms aur tr
    obtain ⟨c, tr1, heq, hinv⟩ := leaf_inv_at fl hleaf 0 ms aur tr
    exact ⟨c, tr1, by simpa [contents] using heq, hinv⟩
  | succ d ih =>
    intro ms aur tr
    simp only [contents]
    by_cases h1 : (!(fl.allowRegular || fl.allowListOffset || fl.allowList
        || fl.allowRecord || fl.allowUnion) || ms == 0) = true
    · rw [if_pos h1]
      exact leaf_inv_at fl hleaf (d+1) ms aur tr
    · rw [if_neg h1]
      rcases hdb : drawBool tr with ⟨gd, tr1⟩
      simp only [hdb]
      cases gd with
      | false =>
        simp only [Bool.not_false, if_true]
        exact leaf_inv_at fl hleaf (d+1) ms aur tr1
      | true =>
        simp only [Bool.not_true, Bool.false_eq_true, if_false]
        by_cases hce : (node_candidates fl aur).isEmpty = true
        · rw [if_pos hce]
          exact leaf_inv_at fl hleaf (d+1) ms aur tr1
        · rw [if_neg hce]
          have hne : node_candidates fl aur ≠ [] := by
            intro h0
            rw [h0] at hce
            exact hce rfl
          rcases hnt : drawChoice (node_candidates fl aur) .list tr1 with ⟨nt, tr2⟩
          simp only [hnt]
          have hmem := drawChoice_mem (node_candidates fl aur) .list tr1 hne
          rw [hnt] at hmem
          have hinv2 := inv_of_ok ih
          have hok2 : ∀ ms2 aur2 tr9, ∃ c tr10, contents fl d ms2 aur2 tr9 = .ok (c, tr10) := by
            intro ms2 aur2 tr9
            obtain ⟨c, tr10, heq, _⟩ := ih ms2 aur2 tr9
            exact ⟨c, tr10, heq⟩
          cases nt with
          | union =>
            have hfm := mem_candidates_union hmem
            obtain ⟨c, tr3, hbn, hw, hdp, hresp, hnu, hiu⟩ :=
              build_node_inv fl d (contents fl d) hok2 hinv2 ms .union tr2 hfm.1
            refine ⟨c, tr3, hbn, hw, hdp, hresp, hnu, ?_, fun h0 => absurd h0 (by omega)⟩
            intro h0
            rw [hfm.2] at h0
            exact Bool.noConfusion h0
          | record =>
            have hfm := mem_candidates_record hmem
            obtain ⟨c, tr3, hbn, hw, hdp, hresp, hnu, hiu⟩ :=
              build_node_inv fl d (contents fl d) hok2 hinv2 ms .record tr2 hfm
            exact ⟨c, tr3, hbn, hw, hdp, hresp, hnu,
              fun _ => hiu (fun h0 => NodeType.noConfusion h0),
              fun h0 => absurd h0 (by omega)⟩
          | regular =>
            have hfm := mem_candidates_regular hmem
            obtain ⟨c, tr3, hbn, hw, hdp, hresp, hnu, hiu⟩ :=
              build_node_inv fl d (contents fl d) hok2 hinv2 ms .regular tr2 hfm
            exact ⟨c, tr3, hbn, hw, hdp, hresp, hnu,
              fun _ => hiu (fun h0 => NodeType.noConfusion h0),
              fun h0 => absurd h0 (by omega)⟩
          | listOffset =>
            have hfm := mem_candidates_list_offset hmem
            obtain ⟨c, tr3, hbn, hw, hdp, hresp, hnu, hiu⟩ :=
              build_node_inv fl d (contents fl d) hok2 hinv2 ms .listOffset tr2 hfm
            exact ⟨c, tr3, hbn, hw, hdp, hresp, hnu,
              fun _ => hiu (fun h0 => NodeType.noConfusion h0),
              fun h0 => absurd h0 (by omega)⟩
          | list =>
            have hfm := mem_candidates_list hmem
            obtain ⟨c, tr3, hbn, hw, hdp, hresp, hnu, hiu⟩ :=
              build_node_inv fl d (contents fl d) hok2 hinv2 ms .list tr2 hfm
            exact ⟨c, tr3, hbn, hw, hdp, hresp, hnu,
              fun _ => hiu (fun h0 => NodeType.noConfusion h0),
              fun h0 => absurd h0 (by omega)⟩

theorem build_node_err (recurse : Nat → Bool → Trace → Except ConfigError (Content × Trace))
    (herr : ∀ ms aur tr, ∃ rest, recurse ms aur tr = .error ⟨leafMsg, rest⟩) :
    ∀ ms nt tr, ∃ rest, build_node recurse ms nt tr = .error ⟨leafMsg, rest⟩ := by
  intro ms nt tr
  cases nt with
  | union =>
    obtain ⟨rest, hl⟩ := _st_content_lists_err (fun ms2 t => recurse ms2 false t)
      (fun ms2 t => herr ms2 false t) 2 ms tr (by omega)
    exact ⟨rest, by simp only [build_node, hl]⟩
  | record =>
    obtain ⟨rest, hl⟩ := _st_content_lists_err (fun ms2 t => recurse ms2 true t)
      (fun ms2 t => herr ms2 true t) 1 ms tr (by omega)
    exact ⟨rest, by simp only [build_node, hl]⟩
  | regular =>
    obtain ⟨rest, hl⟩ := herr ms true tr
    exact ⟨rest, by simp only [build_node, hl]⟩
  | listOffset =>
    obtain ⟨rest, hl⟩ := herr ms true tr
    exact ⟨rest, by simp only [build_node, hl]⟩
  | list =>
    obtain ⟨rest, hl⟩ := herr ms true tr
    exact ⟨rest, by simp only [build_node, hl]⟩

theorem contents_err (fl : Flags) (hleaf : leafOk fl = false) :
    ∀ d ms aur tr, ∃ rest, contents fl d ms aur tr = .error ⟨leafMsg, rest⟩ := by
  have hl0 : (fl.allowNumpy || fl.allowEmpty || fl.allowString || fl.allowBytestring)
      = false := by simpa [leafOk] using hleaf
  intro d
  induction d with
  | zero =>
    intro ms aur tr
    exact ⟨tr, by
      simp only [contents]
      exact leaf_contents_err _ _ _ _ 0 ms tr hl0⟩
  | succ d ih =>
    intro ms aur tr
    simp only [contents]
    by_cases h1 : (!(fl.allowRegular || fl.allowListOffset || fl.allowList
        || fl.allowRecord || fl.allowUnion) || ms == 0) = true
    · rw [if_pos h1]
      exact ⟨tr, leaf_contents_err _ _ _ _ 0 ms tr hl0⟩
    · rw [if_neg h1]
      rcases hdb : drawBool tr with ⟨gd, tr1⟩
      simp only [hdb]
      cases gd with
      | false =>
        simp only [Bool.not_false, if_true]
        exact ⟨tr1, leaf_contents_err _ _ _ _ 0 ms tr1 hl0⟩
      | true =>
        simp only [Bool.not_true, Bool.false_eq_true, if_false]
        by_cases hce : (node_candidates fl aur).isEmpty = true
        · rw [if_pos hce]
          exact ⟨tr1, leaf_contents_err _ _ _ _ 0 ms tr1 hl0⟩
        · rw [if_neg hce]
          rcases hnt : drawChoice (node_candidates fl aur) .list tr1 with ⟨nt, tr2⟩
          simp only [hnt]
          exact build_node_err (contents fl d) ih ms nt tr2

theorem contents_inv_any (fl : Flags) (d ms : Nat) (aur : Bool) (tr : Trace)
    (c : Content) (tr1 : Trace) (hok : contents fl d ms aur tr = .ok (c, tr1)) :
    Inv fl d ms aur c := by
  cases hl : leafOk fl with
  | true => exact inv_of_ok (contents_ok_inv fl hl d) ms aur tr c tr1 hok
  | false =>
    obtain ⟨rest, herr⟩ := contents_err fl hl d ms aur tr
    rw [herr] at hok
    exact absurd hok (by simp)

/-! Claim theorems. -/

/-- C1: for every configuration of the recursive contents() generator and
every draw trace, the total number of leaf scalar elements of the generated
tree (each string or bytestring element counting as one unit) is at most the
configured max_size; and every children list produced by _st_content_lists
against a shared budget B has total weight at most B. -/
theorem claim_C1_weight_budget :
    (∀ (fl : Flags) (d ms : Nat) (aur : Bool) (tr : Trace) (c : Content) (tr1 : Trace),
      contents fl d ms aur tr = .ok (c, tr1) → weight c ≤ ms)
    ∧ (∀ (fl : Flags) (d minS B : Nat) (aur : Bool) (tr : Trace) (cs : List Content)
        (tr1 : Trace),
      _st_content_lists (fun ms t => contents fl d ms aur t) minS B tr = .ok (cs, tr1) →
      weightList cs ≤ B) := by
  constructor
  · intro fl d ms aur tr c tr1 hok
    exact (contents_inv_any fl d ms aur tr c tr1 hok).1
  · intro fl d minS B aur tr cs tr1 hok
    have hc : ∀ ms2 tr2 c tr3, contents fl d ms2 aur tr2 = .ok (c, tr3) →
        True ∧ weight c ≤ ms2 := by
      intro ms2 tr2 c tr3 heq
      exact ⟨trivial, (contents_inv_any fl d ms2 aur tr2 c tr3 heq).1⟩
    exact (_st_content_lists_inv _ _ hc minS B tr cs tr1 hok).2.1

/-- C1 witness: a concrete run within the budget. -/
theorem claim_C1_weight_budget_witness : weight (Content.numpyArray 0) ≤ 10 :=
  claim_C1_weight_budget.1 Flags.default 5 10 true [] (.numpyArray 0) [] rfl

/-- C4: for every generated tree, the number of wrapper layers on the deepest
root-to-leaf path (not counting string/bytestring internals) is at most
max_depth, and with max_depth = 0 the result is a single leaf with no wrapper
node at all, whichever wrapper kinds are enabled. -/
theorem claim_C4_depth_bound (fl : Flags) (d ms : Nat) (aur : Bool) (tr : Trace)
    (c : Content) (tr1 : Trace) (hok : contents fl d ms aur tr = .ok (c, tr1)) :
    cdepth c ≤ d ∧ (d = 0 → isLeaf c = true) := by
  have h := contents_inv_any fl d ms aur tr c tr1 hok
  exact ⟨h.2.1, h.2.2.2.2.2⟩

/-- C4 witness: with max_depth = 0 a pure leaf is produced. -/
theorem claim_C4_depth_bound_witness :
    cdepth (Content.numpyArray 0) ≤ 0 ∧ (0 = 0 → isLeaf (Content.numpyArray 0) = true) :=
  claim_C4_depth_bound Flags.default 0 10 true [] (.numpyArray 0) [] rfl

/-- C5: for every configuration, a leaf or wrapper kind disabled by its
allow flag never occurs anywhere in the generated tree, at any depth. -/
theorem claim_C5_gating (fl : Flags) (d ms : Nat) (aur : Bool) (tr : Trace)
    (c : Content) (tr1 : Trace) (hok : contents fl d ms aur tr = .ok (c, tr1)) :
    (fl.allowNumpy = false → hasNode isNumpy c = false)
    ∧ (fl.allowEmpty = false → hasNode isEmpty c = false)
    ∧ (fl.allowString = false → hasNode isString c = false)
    ∧ (fl.allowBytestring = false → hasNode isBytestring c = false)
    ∧ (fl.allowRegular = false → hasNode isRegular c = false)
    ∧ (fl.allowListOffset = false → hasNode isListOffset c = false)
    ∧ (fl.allowList = false → hasNode isListArray c = false)
    ∧ (fl.allowRecord = false → hasNode isRecord c = false)
    ∧ (fl.allowUnion = false → hasNode isUnion c = false) := by
  have hresp : respects fl c = true := (contents_inv_any fl d ms aur tr c tr1 hok).2.2.1
  refine ⟨?_, ?_, ?_, ?_, ?_, ?_, ?_, ?_, ?_⟩ <;>
    intro hflag <;>
    apply respects_no_disabled fl c hresp <;>
    intro x hx <;>
    simp [badNode, hx, hflag]

/-- C5 witness: unions disabled, none generated. -/
theorem claim_C5_gating_witness :
    hasNode isUnion (Content.numpyArray 0) = false :=
  (claim_C5_gating ⟨true, true, true, true, true, true, true, true, false⟩
    5 10 true [] (.numpyArray 0) [] rfl).2.2.2.2.2.2.2.2 rfl

/-- C3 counterexample: with every leaf kind disabled but wrapper kinds
enabled, the error is not raised before Sampler draws are consumed: on the
trace [1, 0] the generator consumes the branching coin flip and the node-type
choice before raising, leaving an empty remaining trace. -/
theorem claim_C3_counterexample :
    contents ⟨false, false, false, false, true, true, true, true, true⟩ 5 10 true [1, 0]
      = .error ⟨leafMsg, []⟩ ∧ ([] : Trace) ≠ [1, 0] :=
  ⟨rfl, by simp⟩

/-- C3 amended: building a content raises the ConfigurationError whose message
names the constraint exactly when all four leaf kinds are disabled (no other
configuration raises it); the error is raised before any Sampler draw is
consumed whenever no wrapper kind is enabled or max_size is zero, but on
branching paths (wrapper kinds enabled, positive max_size and max_depth) draws
may be consumed before the error is raised. -/
theorem claim_C3_config_error :
    (∀ (fl : Flags) (d ms : Nat) (aur : Bool) (tr : Trace), leafOk fl = false →
      ∃ rest, contents fl d ms aur tr = .error ⟨leafMsg, rest⟩)
    ∧ (∀ (fl : Flags) (d ms : Nat) (aur : Bool) (tr : Trace), leafOk fl = true →
      ∃ c tr1, contents fl d ms aur tr = .ok (c, tr1))
    ∧ (∀ (fl : Flags) (d ms : Nat) (aur : Bool) (tr : Trace), leafOk fl = false →
      ((fl.allowRegular || fl.allowListOffset || fl.allowList || fl.allowRecord
        || fl.allowUnion) = false ∨ ms = 0) →
      contents fl d ms aur tr = .error ⟨leafMsg, tr⟩) := by
  refine ⟨?_, ?_, ?_⟩
  · intro fl d ms aur tr hl
    exact contents_err fl hl d ms aur tr
  · intro fl d ms aur tr hl
    obtain ⟨c, tr1, heq, _⟩ := contents_ok_inv fl hl d ms aur tr
    exact ⟨c, tr1, heq⟩
  · intro fl d ms aur tr hl hcase
    have hl0 : (fl.allowNumpy || fl.allowEmpty || fl.allowString || fl.allowBytestring)
        = false := by simpa [leafOk] using hl
    cases d with
    | zero =>
      simp only [contents]
      exact leaf_contents_err _ _ _ _ 0 ms tr hl0
    | succ d =>
      simp only [contents]
      have h1 : (!(fl.allowRegular || fl.allowListOffset || fl.allowList
          || fl.allowRecord || fl.allowUnion) || ms == 0) = true := by
        rcases hcase with h | h
        · simp [h]
        · simp [h]
      rw [if_pos h1]
      exact leaf_contents_err _ _ _ _ 0 ms tr hl0

/-- C3 witness: with every leaf kind and every wrapper kind disabled, the
error is raised with the full trace intact. -/
theorem claim_C3_config_error_witness :
    contents ⟨false, false, false, false, false, false, false, false, false⟩
      3 10 true [7, 8] = .error ⟨leafMsg, [7, 8]⟩ :=
  claim_C3_config_error.2.2 ⟨false, false, false, false, false, false, false, false, false⟩
    3 10 true [7, 8] rfl (Or.inl rfl)

/-! Permutation lemmas for the union builder. -/

theorem cons_eraseIdx_perm (d : α) :
    ∀ (l : List α) (i : Nat), i < l.length → l.Perm (l.getD i d :: l.eraseIdx i) := by
  intro l
  induction l with
  | nil => intro i hi; simp at hi
  | cons a t ih =>
    intro i hi
    cases i with
    | zero => simp [List.getD]
    | succ i =>
      have hi2 : i < t.length := by simpa using hi
      simp only [List.getD_cons_succ, List.eraseIdx_cons_succ]
      exact ((ih i hi2).cons a).trans (List.Perm.swap (t.getD i d) a (t.eraseIdx i))

theorem permuteGo_perm (d : α) :
    ∀ (f h : Nat) (xs : List α), xs.length ≤ f → (permuteGo d f h xs).Perm xs := by
  intro f
  induction f with
  | zero =>
    intro h xs hl
    cases xs with
    | nil => simp [permuteGo]
    | cons x t => simp at hl
  | succ f ih =>
    intro h xs hl
    cases xs with
    | nil => simp [permuteGo]
    | cons x t =>
      simp only [permuteGo]
      have hi : h % (x :: t).length < (x :: t).length := Nat.mod_lt _ (by simp)
      have hlen : ((x :: t).eraseIdx (h % (x :: t).length)).length ≤ f := by
        rw [List.length_eraseIdx]
        rw [if_pos hi]
        simp only [List.length_cons] at hl ⊢
        omega
      have hrec := ih (h / (x :: t).length) ((x :: t).eraseIdx (h % (x :: t).length)) hlen
      exact (List.Perm.cons _ hrec).trans (cons_eraseIdx_perm d (x :: t) _ hi).symm

theorem permuteBy_perm (d : α) (h : Nat) (xs : List α) : (permuteBy d h xs).Perm xs :=
  permuteGo_perm d xs.length h xs (le_refl _)

theorem zip_map_fst_snd_eq : ∀ (l : List (α × β)),
    (l.map Prod.fst).zip (l.map Prod.snd) = l := by
  intro l
  induction l with
  | nil => rfl
  | cons p t ih => simp [ih]

theorem variant_pairs_length : ∀ (k : Nat) (lens : List Nat),
    (variant_pairs k lens).length = lens.sum := by
  intro k lens
  induction lens generalizing k with
  | nil => rfl
  | cons len rest ih => simp [variant_pairs, ih]

theorem sumLens_eq_sum (cs : List Content) : sumLens cs = (cs.map clen).sum := by
  induction cs with
  | nil => rfl
  | cons c rest ih => simp [sumLens, ih]

theorem variant_pairs_shift : ∀ (lens : List Nat) (k : Nat),
    variant_pairs (k + 1) lens = (variant_pairs k lens).map (fun p => (p.1 + 1, p.2)) := by
  intro lens
  induction lens with
  | nil => intro k; rfl
  | cons len rest ih =>
    intro k
    simp only [variant_pairs, List.map_append, List.map_map]
    rw [ih (k + 1)]
    rfl

theorem variant_pairs_filter : ∀ (lens : List Nat) (v : Nat), v < lens.length →
    ((variant_pairs 0 lens).filter (fun p => p.1 == v)).map Prod.snd
      = List.range (lens.getD v 0) := by
  intro lens
  induction lens with
  | nil => intro v hv; simp at hv
  | cons len rest ih =>
    intro v hv
    cases v with
    | zero =>
      simp only [variant_pairs, List.filter_append, List.map_append]
      rw [variant_pairs_shift rest 0]
      rw [List.filter_map, List.filter_map]
      have h1 : (List.range len).filter ((fun p => p.1 == 0) ∘ fun i => ((0 : Nat), i))
          = List.range len := by
        apply List.filter_eq_self.mpr
        intro a _
        rfl
      have h2 : (variant_pairs 0 rest).filter
          ((fun p => p.1 == 0) ∘ fun p => (p.1 + 1, p.2)) = [] := by
        apply List.filter_eq_nil_iff.mpr
        intro p _
        simp [Function.comp]
      rw [h1, h2]
      simp [List.map_map, Function.comp]
    | succ w =>
      have hw : w < rest.length := by simpa using hv
      simp only [variant_pairs, List.filter_append, List.map_append]
      rw [variant_pairs_shift rest 0]
      rw [List.filter_map, List.filter_map]
      have h1 : (List.range len).filter ((fun p => p.1 == w + 1) ∘ fun i => ((0 : Nat), i))
          = [] := by
        apply List.filter_eq_nil_iff.mpr
        intro p _
        simp [Function.comp]
      have h2 : (variant_pairs 0 rest).filter
          ((fun p => p.1 == w + 1) ∘ fun p => (p.1 + 1, p.2))
          = (variant_pairs 0 rest).filter (fun p => p.1 == w) := by
        apply List.filter_congr
        intro p _
        simp [Function.comp]
      rw [h1, h2]
      have h3 := ih w hw
      simp only [List.map_map] at *
      have h4 : Prod.snd ∘ (fun p : Nat × Nat => (p.1 + 1, p.2)) = Prod.snd := rfl
      rw [List.map_nil, List.nil_append, h4]
      exact h3

/-- C6: every generated UnionArray has tags and index of equal length, that
length equal to the summed child lengths, and for each variant v the multiset
of index values at positions tagged v is exactly 0..len(contents[v])-1; the
tags/index arrays are the per-variant compact runs shuffled in parallel by one
random permutation. -/
theorem claim_C6_union_compact (cs : List Content) (tr : Trace) :
    ∃ t i tr1, union_array_contents cs tr = (.unionArray t i cs, tr1) ∧
      t.length = i.length ∧ t.length = sumLens cs ∧
      ∀ v, v < cs.length →
        List.Perm (((t.zip i).filter (fun p => p.1 == v)).map Prod.snd)
          (List.range (clen (cs.getD v .emptyArray))) := by
  cases cs with
  | nil =>
    refine ⟨[], [], tr, by simp [union_array_contents], rfl, rfl, ?_⟩
    intro v hv
    simp at hv
  | cons c0 rest =>
    refine ⟨(permuteBy (0, 0) (drawRaw tr).1 (variant_pairs 0 ((c0 :: rest).map clen))).map
        Prod.fst,
      (permuteBy (0, 0) (drawRaw tr).1 (variant_pairs 0 ((c0 :: rest).map clen))).map
        Prod.snd,
      (drawRaw tr).2, rfl, by simp, ?_, ?_⟩
    · rw [List.length_map, (permuteBy_perm _ _ _).length_eq, variant_pairs_length,
        sumLens_eq_sum]
    · intro v hv
      rw [zip_map_fst_snd_eq]
      have hperm := permuteBy_perm (0, 0) (drawRaw tr).1
        (variant_pairs 0 ((c0 :: rest).map clen))
      have hstep := (hperm.filter (fun p => p.1 == v)).map Prod.snd
      have hv2 : v < ((c0 :: rest).map clen).length := by simpa using hv
      have hfin := variant_pairs_filter ((c0 :: rest).map clen) v hv2
      rw [hfin] at hstep
      have hget : ((c0 :: rest).map clen).getD v 0
          = clen ((c0 :: rest).getD v .emptyArray) := by
        have h5 := List.getD_map (c0 :: rest) Content.emptyArray clen (n := v)
        simpa [clen] using h5
      rw [hget] at hstep
      exact hstep

/-- C6 witness: the compactness invariant at a concrete union. -/
theorem claim_C6_union_compact_witness :
    ∃ t i tr1,
      union_array_contents [Content.numpyArray 2] [0]
        = (.unionArray t i [Content.numpyArray 2], tr1) ∧
      List.Perm (((t.zip i).filter (fun p => p.1 == 0)).map Prod.snd)
        (List.range (clen ([Content.numpyArray 2].getD 0 .emptyArray))) := by
  obtain ⟨t, i, tr1, heq, _, _, hperm⟩ :=
    claim_C6_union_compact [Content.numpyArray 2] [0]
  exact ⟨t, i, tr1, heq, hperm 0 (by decide)⟩

/-! Lemmas for the RegularArray sizing draw. -/

theorem _size_and_zeros_length_spec (L ms mzl : Nat) (tr : Trace) :
    (_size_and_zeros_length L ms mzl tr).1.1 = 0
      ∨ (0 < (_size_and_zeros_length L ms mzl tr).1.1
          ∧ L % (_size_and_zeros_length L ms mzl tr).1.1 = 0) := by
  by_cases hL : L = 0
  · simp only [_size_and_zeros_length, if_pos hL]
    rcases hs : drawNat 0 ms tr with ⟨s, tr1⟩
    simp only [hs]
    by_cases hs0 : s = 0
    · simp [hs0]
    · simp only [if_neg hs0]
      right
      subst hL
      exact ⟨Nat.pos_of_ne_zero hs0, Nat.zero_mod _⟩
  · simp only [_size_and_zeros_length, if_neg hL]
    by_cases hdiv : ((List.range' 1 (min L ms)).filter fun d => L % d == 0).isEmpty = true
    · simp [hdiv]
    · simp only [hdiv, Bool.false_eq_true, if_false]
      right
      have hne : ((List.range' 1 (min L ms)).filter fun d => L % d == 0) ≠ [] := by
        intro h0
        rw [h0] at hdiv
        exact hdiv rfl
      have hmem := drawChoice_mem _ 1 tr hne
      rw [List.mem_filter] at hmem
      have h1 := hmem.1
      rw [List.mem_range'] at h1
      obtain ⟨j, hj1, hj2⟩ := h1
      have h2 := hmem.2
      constructor
      · omega
      · simpa using h2

/-- C8: every generated RegularArray has size = 0 (with an independently drawn
zeros_length) or a positive size dividing the child length, with the array
length equal to len(child) / size; for a non-empty child the size is sampled
from exactly the set of divisors of the child length not exceeding max_size
(every such divisor being reachable), and the fall-back to size = 0 with a
drawn zeros_length is taken exactly when that divisor set is empty. -/
theorem claim_C8_regular_sizing :
    (∀ (content : Content) (tr : Trace),
      ∃ s z tr1, regular_array_contents content tr = (.regularArray content s z, tr1)
        ∧ (s = 0 ∨ (0 < s ∧ clen content % s = 0
            ∧ clen (Content.regularArray content s z) = clen content / s)))
    ∧ (∀ (L ms mzl : Nat) (tr : Trace), 0 < L →
        (((List.range' 1 (min L ms)).filter fun d => L % d == 0) = [] →
          (_size_and_zeros_length L ms mzl tr).1.1 = 0)
        ∧ (((List.range' 1 (min L ms)).filter fun d => L % d == 0) ≠ [] →
          (_size_and_zeros_length L ms mzl tr).1.1
              ∈ (List.range' 1 (min L ms)).filter (fun d => L % d == 0)
            ∧ (_size_and_zeros_length L ms mzl tr).1.2 = 0))
    ∧ (∀ (L ms mzl dv : Nat), 0 < L →
        dv ∈ (List.range' 1 (min L ms)).filter (fun d => L % d == 0) →
        ∃ tr, (_size_and_zeros_length L ms mzl tr).1.1 = dv) := by
  refine ⟨?_, ?_, ?_⟩
  · intro content tr
    refine ⟨(_size_and_zeros_length (clen content) 5 5 tr).1.1,
      (_size_and_zeros_length (clen content) 5 5 tr).1.2,
      (_size_and_zeros_length (clen content) 5 5 tr).2, rfl, ?_⟩
    rcases _size_and_zeros_length_spec (clen content) 5 5 tr with h | h
    · exact Or.inl h
    · refine Or.inr ⟨h.1, h.2, ?_⟩
      simp only [clen]
      rw [if_neg (by omega)]
  · intro L ms mzl tr hL
    constructor
    · intro hdiv
      simp only [_size_and_zeros_length, if_neg (by omega : ¬L = 0), hdiv]
      rcases hz : drawNat 0 mzl tr with ⟨z, tr1⟩
      simp [hz]
    · intro hdiv
      have he : ((List.range' 1 (min L ms)).filter fun d => L % d == 0).isEmpty = false := by
        cases h0 : (List.range' 1 (min L ms)).filter fun d => L % d == 0 with
        | nil => exact absurd h0 hdiv
        | cons a t => rfl
      simp only [_size_and_zeros_length, if_neg (by omega : ¬L = 0), he,
        Bool.false_eq_true, if_false]
      exact ⟨drawChoice_mem _ 1 tr hdiv, by trivial⟩
  · intro L ms mzl dv hL hmem
    obtain ⟨n, hn, hget⟩ := List.mem_iff_getElem.mp hmem
    refine ⟨[n], ?_⟩
    have he : ((List.range' 1 (min L ms)).filter fun d => L % d == 0).isEmpty = false := by
      cases h0 : (List.range' 1 (min L ms)).filter fun d => L % d == 0 with
      | nil => rw [h0] at hmem; simp at hmem
      | cons a t => rfl
    simp only [_size_and_zeros_length, if_neg (by omega : ¬L = 0), he,
      Bool.false_eq_true, if_false]
    simp only [drawChoice]
    rw [Nat.mod_eq_of_lt hn]
    rw [List.getD_eq_getElem?_getD, List.getElem?_eq_getElem hn]
    exact hget

/-- C8 witness: a child of length 6 with max_size 5 gets divisor 2 via the
trace picking the second divisor, and the validity invariant holds. -/
theorem claim_C8_regular_sizing_witness :
    ∃ tr, (_size_and_zeros_length 6 5 5 tr).1.1 = 2 :=
  claim_C8_regular_sizing.2.2 6 5 5 2 (by decide) (by decide)

/-! Lemmas for the zero-progress loop analysis (C2). -/

theorem zeroProgressTrace_length : ∀ k, (zeroProgressTrace k).length = 3 * k + 1 := by
  intro k
  induction k with
  | zero => rfl
  | succ k ih => simp [zeroProgressTrace, ih]; omega

theorem c2_child_eval (rest : Trace) :
    contents Flags.default 4 10 true (0 :: 1 :: rest) = .ok (.emptyArray, rest) := rfl

theorem c2_coin_loop : ∀ (k f : Nat) (acc : List Content), k + 1 ≤ f →
    _coin_draws (fun ms t => contents Flags.default 4 ms true t) f 10 acc
      (zeroProgressTrace k) = .ok (acc ++ List.replicate k .emptyArray, []) := by
  intro k
  induction k with
  | zero =>
    intro f acc hf
    cases f with
    | zero => omega
    | succ f =>
      simp only [zeroProgressTrace, _coin_draws, drawBool]
      norm_num
  | succ k ih =>
    intro f acc hf
    cases f with
    | zero => omega
    | succ f =>
      simp only [zeroProgressTrace, _coin_draws, drawBool]
      norm_num
      rw [show Int.toNat 10 = 10 from rfl]
      rw [c2_child_eval (zeroProgressTrace k)]
      simp only [weight]
      norm_num
      have := ih f (acc ++ [Content.emptyArray]) (by omega)
      rw [this]
      simp [List.replicate_succ]

theorem c2_lists_run (k : Nat) :
    _st_content_lists (fun ms t => contents Flags.default 4 ms true t) 1 10
      (0 :: 1 :: zeroProgressTrace k)
      = .ok (.emptyArray :: List.replicate k .emptyArray, []) := by
  have hforced : _forced_draws (fun ms t => contents Flags.default 4 ms true t) 1
      ((10 : Nat) : Int) [] (0 :: 1 :: zeroProgressTrace k)
      = .ok (((10 : Nat) : Int) - (weight Content.emptyArray : Int),
          [Content.emptyArray], zeroProgressTrace k) := by
    simp only [_forced_draws]
    rw [show (((10 : Nat) : Int)).toNat = 10 from rfl]
    rw [c2_child_eval (zeroProgressTrace k)]
    rfl
  simp only [_st_content_lists, hforced]
  have hrem : ((10 : Nat) : Int) - (weight Content.emptyArray : Int) = (10 : Int) := by
    simp [weight]
  rw [hrem]
  have hlen : (zeroProgressTrace k).length + 1 = 3 * k + 2 := by
    rw [zeroProgressTrace_length]
  rw [hlen]
  have := c2_coin_loop k (3 * k + 2) [Content.emptyArray] (by omega)
  rw [this]
  simp [List.replicate_succ]

/-- C2 counterexample: the children loop of _st_content_lists, driven by the
generator's own child strategy, is not bounded by any fixed number of draws:
for every N there is a draw trace on which every accepted draw has zero weight
while the budget stays positive, and the loop performs more than N draws. -/
theorem claim_C2_counterexample :
    ¬ ∃ N : Nat, ∀ (tr : Trace) (cs : List Content) (tr1 : Trace),
      _st_content_lists (fun ms t => contents Flags.default 4 ms true t) 1 10 tr
        = .ok (cs, tr1) → cs.length ≤ N := by
  rintro ⟨N, hN⟩
  have hrun := c2_lists_run (N + 1)
  have hle := hN _ _ _ hrun
  simp at hle
  omega

/-- C2 amended: the CountdownDrawer loop driver does satisfy the claimed
bound — across any number of calls it performs at most max_draws non-None
draws, regardless of the budget, the strategy, and the draw trace; the
coin-flip children loop of _st_content_lists carries no such fixed bound. -/
theorem claim_C2_countdown_bound
    (stFn : Nat → Nat → Trace → Content × Trace) (minE : Nat) (maxE : Option Nat)
    (maxD : Nat) : ∀ (k m : Nat) (tr0 tr : Trace),
    countSome (countdownRun stFn minE maxE maxD k ((countdownInit m tr0).1) tr)
      ≤ maxD := by
  have key : ∀ (k : Nat) (s : CDState) (tr : Trace),
      countSome (countdownRun stFn minE maxE maxD k s tr) ≤ maxD - s.nDraws := by
    intro k
    induction k with
    | zero => intro s tr; simp [countdownRun, countSome]
    | succ k ih =>
      intro s tr
      rcases hcd : countdownDraw stFn minE maxE maxD s tr with ⟨r, s1, tr1⟩
      have hcases : (r = none ∧ s1 = s)
          ∨ (r.isSome = true ∧ s1.nDraws = s.nDraws + 1 ∧ s.nDraws < maxD) := by
        simp only [countdownDraw] at hcd
        split at hcd
        · injection hcd with h1 h2
          injection h2 with h2a h2b
          exact Or.inl ⟨h1.symm, h2a.symm⟩
        · split at hcd
          · injection hcd with h1 h2
            injection h2 with h2a h2b
            exact Or.inl ⟨h1.symm, h2a.symm⟩
          · injection hcd with h1 h2
            injection h2 with h2a h2b
            refine Or.inr ⟨?_, ?_, by omega⟩
            · rw [← h1]; rfl
            · rw [← h2a]
          -- the third branch returns (some r, state with nDraws + 1, tr)
      simp only [countdownRun, hcd]
      rcases hcases with ⟨hr, hs⟩ | ⟨hr, hnd, hlt⟩
      · subst hr
        rw [hs]
        simp only [countSome]
        exact ih s tr1
      · obtain ⟨x, hx⟩ := Option.isSome_iff_exists.mp hr
        subst hx
        simp only [countSome]
        have := ih s1 tr1
        omega
  intro k m tr0 tr
  have h0 : ((countdownInit m tr0).1).nDraws = 0 := rfl
  have := key k ((countdownInit m tr0).1) tr
  omega

/-- C7: in every generated tree, the immediate children of a UnionArray are
never themselves UnionArray nodes, while on a suitable draw trace a UnionArray
does occur as a deeper descendant (grandchild or below) of another
UnionArray. -/
theorem claim_C7_no_union_of_union :
    (∀ (fl : Flags) (d ms : Nat) (aur : Bool) (tr : Trace) (c : Content) (tr1 : Trace),
      contents fl d ms aur tr = .ok (c, tr1) → noUnionOfUnion c = true)
    ∧ (∃ c tr1, contents Flags.default 5 20 true
        [1, 4, 1, 3, 1, 4, 0, 0, 1, 0, 0, 1, 0, 0, 0, 0, 0, 1, 0, 0] = .ok (c, tr1)
        ∧ unionWithDeepUnion c = true) := by
  constructor
  · intro fl d ms aur tr c tr1 hok
    exact (contents_inv_any fl d ms aur tr c tr1 hok).2.2.2.1
  · exact ⟨_, _, rfl, rfl⟩

/-- C7 witness: the invariant at a concrete leaf run. -/
theorem claim_C7_no_union_of_union_witness :
    noUnionOfUnion (Content.numpyArray 0) = true :=
  claim_C7_no_union_of_union.1 Flags.default 5 10 true [] (.numpyArray 0) [] rfl

/-! Lemmas for the virtualization post-pass (spec-modelled). -/

theorem wrapBufs_map_force (pick : Nat → Bool) :
    ∀ (i : Nat) (bs : List BufData), (wrapBufs pick i bs).map force = bs := by
  intro i bs
  induction bs generalizing i with
  | nil => rfl
  | cons b t ih =>
    simp only [wrapBufs, List.map_cons]
    by_cases hp : pick i = true
    · simp [hp, force, ih (i + 1)]
    · simp [hp, force, ih (i + 1)]

mutual

theorem reconstruct_round : ∀ (c : Content) (vb rest : List VBuf),
    vb.map force = bufsOf c → reconstruct (formOf c) (vb ++ rest) = (c, rest)
  | .numpyArray n => by
    intro vb rest hm
    cases vb with
    | nil => simp [bufsOf] at hm
    | cons b t =>
      simp only [List.map_cons, bufsOf] at hm
      injection hm with h1 h2
      have ht : t = [] := by simpa using h2
      subst ht
      simp [formOf, reconstruct, h1]
  | .emptyArray => by
    intro vb rest hm
    simp only [bufsOf] at hm
    have hv : vb = [] := by simpa using hm
    subst hv
    simp [formOf, reconstruct]
  | .stringArray n => by
    intro vb rest hm
    cases vb with
    | nil => simp [bufsOf] at hm
    | cons b t =>
      simp only [List.map_cons, bufsOf] at hm
      injection hm with h1 h2
      have ht : t = [] := by simpa using h2
      subst ht
      simp [formOf, reconstruct, h1]
  | .bytestringArray n => by
    intro vb rest hm
    cases vb with
    | nil => simp [bufsOf] at hm
    | cons b t =>
      simp only [List.map_cons, bufsOf] at hm
      injection hm with h1 h2
      have ht : t = [] := by simpa using h2
      subst ht
      simp [formOf, reconstruct, h1]
  | .regularArray c s z => by
    intro vb rest hm
    simp only [bufsOf] at hm
    simp only [formOf, reconstruct]
    rw [reconstruct_round c vb rest hm]
  | .listOffsetArray o c => by
    intro vb rest hm
    cases vb with
    | nil => simp [bufsOf] at hm
    | cons b t =>
      simp only [List.map_cons, bufsOf] at hm
      injection hm with h1 h2
      simp only [formOf, List.cons_append, reconstruct, List.append_eq]
      rw [reconstruct_round c t rest h2]
      simp [h1]
  | .listArray a b c => by
    intro vb rest hm
    cases vb with
    | nil => simp [bufsOf] at hm
    | cons x t =>
      cases t with
      | nil =>
        simp only [List.map_cons, List.map_nil, bufsOf] at hm
        injection hm with h1 h2
        exact absurd h2 (by simp)
      | cons y t2 =>
        simp only [List.map_cons, bufsOf] at hm
        injection hm with h1 h2
        injection h2 with h2a h2b
        simp only [formOf, List.cons_append, reconstruct, List.append_eq]
        rw [reconstruct_round c t2 rest h2b]
        simp [h1, h2a]
  | .recordArray cs f l => by
    intro vb rest hm
    simp only [bufsOf] at hm
    simp only [formOf, reconstruct]
    rw [reconstructList_round cs vb rest hm]
  | .unionArray t i cs => by
    intro vb rest hm
    cases vb with
    | nil => simp [bufsOf] at hm
    | cons x vt =>
      cases vt with
      | nil =>
        simp only [List.map_cons, List.map_nil, bufsOf] at hm
        injection hm with h1 h2
        exact absurd h2 (by simp)
      | cons y vt2 =>
        simp only [List.map_cons, bufsOf] at hm
        injection hm with h1 h2
        injection h2 with h2a h2b
        simp only [formOf, List.cons_append, reconstruct, List.append_eq]
        rw [reconstructList_round cs vt2 rest h2b]
        simp [h1, h2a]

theorem reconstructList_round : ∀ (cs : List Content) (vb rest : List VBuf),
    vb.map force = bufsOfList cs →
    reconstructList (formOfList cs) (vb ++ rest) = (cs, rest)
  | [] => by
    intro vb rest hm
    simp only [bufsOfList] at hm
    have hv : vb = [] := by simpa using hm
    subst hv
    simp [formOfList, reconstructList]
  | c :: cs => by
    intro vb rest hm
    simp only [bufsOfList] at hm
    obtain ⟨vb1, vb2, hvb, h1, h2⟩ := List.map_eq_append_iff.mp hm
    subst hvb
    simp only [formOfList, reconstructList, List.append_assoc]
    rw [reconstruct_round c vb1 (vb2 ++ rest) h1]
    rw [reconstructList_round cs vb2 rest h2]

end

/-- C9: the virtualization post-pass (spec-modelled; the VirtualizationLayer
is absent from src) yields a (form, length, buffers) projection whose form and
length are identical whichever subset of buffer keys is replaced by lazy
thunks; reconstructing from the projection reproduces a value structurally
equal to the original tree, and a tree with no data buffers serializes to an
empty buffer list for every pick (the pass is a no-op). -/
theorem claim_C9_virtualization :
    ∀ (c : Content) (pick pick2 : Nat → Bool),
      (virtualize c pick).1 = (virtualize c pick2).1
      ∧ (virtualize c pick).2.1 = (virtualize c pick2).2.1
      ∧ (reconstruct (virtualize c pick).1 (virtualize c pick).2.2).1 = c
      ∧ (bufsOf c = [] → (virtualize c pick).2.2 = []) := by
  intro c pick pick2
  refine ⟨rfl, rfl, ?_, ?_⟩
  · have hmap : (wrapBufs pick 0 (bufsOf c)).map force = bufsOf c :=
      wrapBufs_map_force pick 0 (bufsOf c)
    have hround := reconstruct_round c (wrapBufs pick 0 (bufsOf c)) [] hmap
    rw [List.append_nil] at hround
    simp only [virtualize]
    rw [hround]
  · intro h0
    simp [virtualize, h0, wrapBufs]

/-- C9 witness: a tree with no data buffers is a no-op for every pick. -/
theorem claim_C9_virtualization_witness :
    (virtualize Content.emptyArray (fun _ => true)).2.2 = [] :=
  (claim_C9_virtualization Content.emptyArray (fun _ => true) (fun _ => false)).2.2.2 rfl

/-- C10: CountdownDrawer replaces the caller-supplied total budget by a freshly
drawn integer in [0, max_size_total] before any child is drawn (any value up to
the cap being reachable), so the effective budget of a constructors.contents()
call is itself random: on the trace [3, 0, 3] with configured max_size 10 the
effective budget is 3, and the leaf draw, though it fills its whole allowed
cap, produces only 3 elements, strictly fewer than the configured 10. -/
theorem claim_C10_budget_resample :
    (∀ (m : Nat) (tr : Trace), (countdownInit m tr).1.maxSizeTotal ≤ m
      ∧ (countdownInit m tr).1.sizeTotal = 0 ∧ (countdownInit m tr).1.nDraws = 0)
    ∧ (∀ (m b : Nat) (t : Trace), b ≤ m →
        (countdownInit m (b :: t)).1.maxSizeTotal = b)
    ∧ (constructorsContents 10 true true true 5 [3, 0, 3] = (.numpyArray 3, [])
        ∧ 3 < 10) := by
  refine ⟨?_, ?_, rfl, by omega⟩
  · intro m tr
    exact ⟨drawNat_le 0 m tr, rfl, rfl⟩
  · intro m b t hbm
    simp only [countdownInit, drawNat, Nat.sub_zero, Nat.zero_add]
    have h1 : b % (m + 1) = b := Nat.mod_eq_of_lt (by omega)
    simp [h1]
    omega

/-- C10 witness: the budget draw takes the value 3 below the cap 10. -/
theorem claim_C10_budget_resample_witness :
    (countdownInit 10 [3]).1.maxSizeTotal = 3 :=
  claim_C10_budget_resample.2.1 10 3 [] (by omega)

end HypAwk
